import Mathlib

/-!
Verification of the TuntunDB storage engine against its specification.

The Python sources are shallowly embedded: machine integers become `Nat`/`Int`
with explicit `% 2 ^ w` where overflow matters, byte strings become `List Nat`,
fallible code returns `Option`, and file access (the repository's fixed-record
and fixed-block cursors) is modelled as access into Lean lists.  Each definition
carries a reference to the Python function it embeds.
-/

namespace TuntunDB

/-! ## Key codec (`src/db/storage_management/type_conversion.py`)

`TypeConverter._int_to_key` converts an integer column value to a `uint64` key:
negative values become `(abs(val) << 1) | 1` and non-negative values `val << 1`,
both masked with `MAX_UINT64`.  Since `abs(val) << 1` is even, or-ing with `1`
is the same as adding `1`, and the mask is a reduction `% 2 ^ 64`. -/

def MAX_UINT64 : Nat := 18446744073709551615

/-- `TypeConverter._int_to_key` from `type_conversion.py` (lines 124-133). -/
def int_to_key (value : Int) : Nat :=
  if value < 0 then
    (2 * value.natAbs + 1) % 2 ^ 64
  else
    (2 * value.toNat) % 2 ^ 64

/-! ## Query runner (`src/db/engine/query_runner.py`)

`QueryRunner.execute` reads `parsed_query["action"]`, special-cases `CREATE`
and `CREATE_FROM_FILE` (routing them to the table manager), rejects queries on
missing tables, and otherwise looks the action up in `command_map`, which maps
only `SELECT` and `INSERT` to command classes.  Anything else is answered with
an `Unsupported action` error. -/

/-- The command classes that `QueryRunner.command_map` can dispatch to. -/
inductive CommandClass where
  | selectCommand
  | insertCommand
deriving DecidableEq, Repr

/-- `QueryRunner.command_map` (query_runner.py lines 9-12). -/
def command_map : List (String × CommandClass) :=
  [("SELECT", CommandClass.selectCommand), ("INSERT", CommandClass.insertCommand)]

/-- A structured query as seen by the runner: its `action` string, and whether
`table_manager.get_table_info` finds the table (abstracting the lookup). -/
structure RunnerQuery where
  action : String
  tableExists : Bool
deriving DecidableEq, Repr

/-- Possible outcomes of `QueryRunner.execute`. -/
inductive RunnerResult where
  /-- `CREATE` is routed to `table_manager.create_table`. -/
  | createTable
  /-- `CREATE_FROM_FILE` is routed to `table_manager.create_table_from_file`. -/
  | createFromFile
  /-- `{"error": "Table ... does not exist"}`. -/
  | noSuchTable
  /-- The query is dispatched to a command class from `command_map`. -/
  | dispatched (cmd : CommandClass)
  /-- `{"error": "Unsupported action: ..."}`. -/
  | unsupported (action : String)
deriving DecidableEq, Repr

/-- `QueryRunner.execute` (query_runner.py lines 14-44). -/
def QueryRunner.execute (q : RunnerQuery) : RunnerResult :=
  if q.action = "CREATE" then
    RunnerResult.createTable
  else if q.action = "CREATE_FROM_FILE" then
    RunnerResult.createFromFile
  else if q.tableExists = false then
    RunnerResult.noSuchTable
  else
    match command_map.lookup q.action with
    | some cmd => RunnerResult.dispatched cmd
    | none => RunnerResult.unsupported q.action

/-- Result of a command handler, as a dictionary abstraction. -/
inductive CommandResult where
  | success (message : String)
  | errorMsg (message : String)
deriving DecidableEq, Repr

/-- `UpdateCommand.execute` (commands/update.py lines 8-12): always returns the
not-implemented error dictionary. -/
def UpdateCommand.execute : CommandResult :=
  CommandResult.errorMsg "UPDATE command not implemented yet"

/-! ## Theorems for C1 -/

/-- C1 counterexample: the claim asserts `a < b → encode_key(a) < encode_key(b)`
for all INT values, but `_int_to_key` maps `-1` to `3` and `1` to `2`, so the
ordering is not preserved at the pair `(-1, 1)`. -/
theorem int_to_key_not_monotone :
    (-1 : Int) < 1 ∧ ¬ (int_to_key (-1) < int_to_key 1) := by
  constructor
  · decide
  · show ¬ ((2 * 1 + 1) % 2 ^ 64 < (2 * 1) % 2 ^ 64)
    decide

/-- C1 (amended): `_int_to_key` is order-preserving on non-negative INT values
(in particular on the whole signed 32-bit INT range above zero): for
`0 ≤ a, b < 2 ^ 63`, `a ≤ b` iff `int_to_key a ≤ int_to_key b`, and
`a < b` iff `int_to_key a < int_to_key b`. -/
theorem int_to_key_mono_nonneg (a b : Int) (ha : 0 ≤ a) (hb : 0 ≤ b)
    (ha2 : a < 2 ^ 63) (hb2 : b < 2 ^ 63) :
    (a ≤ b ↔ int_to_key a ≤ int_to_key b) ∧
    (a < b ↔ int_to_key a < int_to_key b) := by
  have hna : ¬ a < 0 := not_lt.mpr ha
  have hnb : ¬ b < 0 := not_lt.mpr hb
  have hka : int_to_key a = 2 * a.toNat := by
    rw [int_to_key, if_neg hna]
    apply Nat.mod_eq_of_lt
    have : a.toNat < 2 ^ 63 := by omega
    omega
  have hkb : int_to_key b = 2 * b.toNat := by
    rw [int_to_key, if_neg hnb]
    apply Nat.mod_eq_of_lt
    have : b.toNat < 2 ^ 63 := by omega
    omega
  rw [hka, hkb]
  omega

/-- Witness for the amended C1 theorem at `a = 2`, `b = 5`. -/
theorem int_to_key_mono_nonneg_witness :
    (2 : Int) ≤ 5 ∧ int_to_key 2 ≤ int_to_key 5 :=
  ⟨by decide, ((int_to_key_mono_nonneg 2 5 (by decide) (by decide) (by decide)
    (by decide)).1.mp (by decide))⟩

/-! ## Theorems for C9 -/

/-- C9 counterexample: a structured query of type `UPDATE` on an existing table
is rejected by `QueryRunner.execute` as `Unsupported action: UPDATE`; it is not
dispatched to any command handler, contradicting the claim that every type in
{CREATE, INSERT, SELECT, DELETE, DROP, UPDATE} is dispatched and that UPDATE
yields the not-implemented error. -/
theorem runner_update_rejected :
    QueryRunner.execute ⟨"UPDATE", true⟩ = RunnerResult.unsupported "UPDATE" ∧
    (∀ cmd, QueryRunner.execute ⟨"UPDATE", true⟩ ≠ RunnerResult.dispatched cmd) ∧
    QueryRunner.execute ⟨"DELETE", true⟩ = RunnerResult.unsupported "DELETE" ∧
    QueryRunner.execute ⟨"DROP", true⟩ = RunnerResult.unsupported "DROP" := by
  refine ⟨rfl, ?_, rfl, rfl⟩
  intro cmd h
  cases h

/-- C9 (amended): the runner handles only CREATE, CREATE_FROM_FILE, SELECT and
INSERT.  CREATE queries go to the table manager, SELECT and INSERT are
dispatched through `command_map`, and DELETE, DROP and UPDATE queries on an
existing table are rejected as unsupported actions.  `UpdateCommand.execute`
itself returns the not-implemented error but is never reached by the runner. -/
theorem runner_dispatch_subset (q : RunnerQuery) (h : q.tableExists = true) :
    (q.action = "CREATE" → QueryRunner.execute q = RunnerResult.createTable) ∧
    (q.action = "CREATE_FROM_FILE" →
      QueryRunner.execute q = RunnerResult.createFromFile) ∧
    (q.action = "SELECT" →
      QueryRunner.execute q = RunnerResult.dispatched CommandClass.selectCommand) ∧
    (q.action = "INSERT" →
      QueryRunner.execute q = RunnerResult.dispatched CommandClass.insertCommand) ∧
    (q.action = "DELETE" ∨ q.action = "DROP" ∨ q.action = "UPDATE" →
      QueryRunner.execute q = RunnerResult.unsupported q.action) ∧
    UpdateCommand.execute = CommandResult.errorMsg "UPDATE command not implemented yet" := by
  obtain ⟨a, e⟩ := q
  cases e with
  | false => cases h
  | true =>
      refine ⟨?_, ?_, ?_, ?_, ?_, rfl⟩ <;> intro ha
      · have h2 : a = "CREATE" := ha
        subst h2; rfl
      · have h2 : a = "CREATE_FROM_FILE" := ha
        subst h2; rfl
      · have h2 : a = "SELECT" := ha
        subst h2; rfl
      · have h2 : a = "INSERT" := ha
        subst h2; rfl
      · rcases ha with ha | ha | ha
        · have h2 : a = "DELETE" := ha
          subst h2; rfl
        · have h2 : a = "DROP" := ha
          subst h2; rfl
        · have h2 : a = "UPDATE" := ha
          subst h2; rfl

/-- Witness for the amended C9 theorem at a SELECT query on an existing table. -/
theorem runner_dispatch_subset_witness :
    QueryRunner.execute ⟨"SELECT", true⟩ = RunnerResult.dispatched CommandClass.selectCommand :=
  (runner_dispatch_subset ⟨"SELECT", true⟩ rfl).2.2.1 rfl

/-! ## Record codec

`TableManager._create_format_string` (table_manager.py lines 191-209, duplicated
as `TypeConverter.create_format_string` in type_conversion.py) builds a
`struct` format string: `'='` (no alignment, standard sizes) followed by `'i'`
for INT, `'{n}s'` for VARCHAR[n], `'I'` for DATE, `'f'` for FLOAT and `'ff'`
for ARRAY[FLOAT].  `TypeConverter.convert_record` / `bytes_to_values`
(utils/type_converter.py) pack and unpack records with such a format. -/

/-- A column type.  The Python sources carry these as strings
(`"INT"`, `"VARCHAR[n]"`, `"DATE"`, `"FLOAT"`, `"ARRAY[FLOAT]"`). -/
inductive ColType where
  | int
  | float
  | varchar (n : Nat)
  | date
  | arrayFloat
deriving DecidableEq, Repr

/-- A schema column: `{"name": ..., "type": ...}`. -/
structure Column where
  name : String
  type : ColType
deriving DecidableEq, Repr

/-- One conversion code of a `struct` format string (after the `'='` prefix). -/
inductive FmtCode where
  /-- `'i'`: signed 32-bit integer. -/
  | fi
  /-- `'I'`: unsigned 32-bit integer. -/
  | fI
  /-- `'f'`: 32-bit IEEE float. -/
  | ff
  /-- `'{n}s'`: `n` raw bytes. -/
  | fs (n : Nat)
deriving DecidableEq, Repr

/-- `TableManager._create_format_string` (table_manager.py lines 191-209). -/
def create_format_string (columns : List Column) : List FmtCode :=
  columns.flatMap fun col =>
    match col.type with
    | ColType.int => [FmtCode.fi]
    | ColType.varchar n => [FmtCode.fs n]
    | ColType.date => [FmtCode.fI]
    | ColType.float => [FmtCode.ff]
    | ColType.arrayFloat => [FmtCode.ff, FmtCode.ff]

/-- Size in bytes of one format code (`struct` standard sizes, as used by
`struct.calcsize` on a `'='` format). -/
def fmtSize : FmtCode → Nat
  | FmtCode.fi => 4
  | FmtCode.fI => 4
  | FmtCode.ff => 4
  | FmtCode.fs n => n

/-- `struct.calcsize` on a `'='`-prefixed format (no alignment padding). -/
def calcsize (fmt : List FmtCode) : Nat :=
  (fmt.map fmtSize).sum

/-- Column sizes as stated by the spec (§3): INT 4, FLOAT 4, DATE 4,
VARCHAR[n] n, ARRAY[FLOAT] 8. -/
def colSize : ColType → Nat
  | ColType.int => 4
  | ColType.float => 4
  | ColType.date => 4
  | ColType.varchar n => n
  | ColType.arrayFloat => 8

/-- Little-endian byte string of length `w` for `n % 2 ^ (8 * w)`. -/
def natToBytesLE : Nat → Nat → List Nat
  | 0, _ => []
  | w + 1, n => n % 256 :: natToBytesLE w (n / 256)

/-- Read a little-endian byte string as an unsigned integer. -/
def leBytesToNat : List Nat → Nat
  | [] => 0
  | b :: bs => b + 256 * leBytesToNat bs

/-- Two's-complement little-endian byte string of length `w` for `n`. -/
def intToBytesLE (w : Nat) (n : Int) : List Nat :=
  natToBytesLE w (n % (2 ^ (8 * w))).toNat

/-- Read a little-endian byte string as a signed (two's-complement) integer. -/
def leBytesToInt (bs : List Nat) : Int :=
  let u := leBytesToNat bs
  if u < 2 ^ (8 * bs.length - 1) then (u : Int) else (u : Int) - 2 ^ (8 * bs.length)

/-- A Python value as passed to `struct.pack` / returned by `struct.unpack`.
A Python float is represented by the 32-bit IEEE pattern it packs to under
code `'f'` (spec §3 declares FLOAT values to be 32-bit IEEE). -/
inductive PackVal where
  | pint (v : Int)
  | pfloat (bits : Nat)
  | pbytes (bs : List Nat)
deriving DecidableEq, Repr

/-- Pack a single value under a single format code.  `'i'` and `'I'` raise
`struct.error` on out-of-range integers; `'{n}s'` truncates or NUL-pads the
byte string to exactly `n`; a value of the wrong Python type raises. -/
def packValue : FmtCode → PackVal → Option (List Nat)
  | FmtCode.fi, PackVal.pint n =>
      if -2 ^ 31 ≤ n ∧ n < 2 ^ 31 then some (intToBytesLE 4 n) else none
  | FmtCode.fI, PackVal.pint n =>
      if 0 ≤ n ∧ n < 2 ^ 32 then some (natToBytesLE 4 n.toNat) else none
  | FmtCode.ff, PackVal.pfloat bits => some (natToBytesLE 4 bits)
  | FmtCode.fs n, PackVal.pbytes bs =>
      some (bs.take n ++ List.replicate (n - bs.length) 0)
  | _, _ => none

/-- `struct.pack(format, *values)`: requires exactly one value per format code
(`struct.error` on a count mismatch). -/
def structPack : List FmtCode → List PackVal → Option (List Nat)
  | [], [] => some []
  | c :: cs, v :: vs => do
      let b ← packValue c v
      let rest ← structPack cs vs
      pure (b ++ rest)
  | _, _ => none

/-- Unpack a single value from its exact-size byte string. -/
def unpackValue (code : FmtCode) (bs : List Nat) : PackVal :=
  match code with
  | FmtCode.fi => PackVal.pint (leBytesToInt bs)
  | FmtCode.fI => PackVal.pint (leBytesToNat bs)
  | FmtCode.ff => PackVal.pfloat (leBytesToNat bs)
  | FmtCode.fs _ => PackVal.pbytes bs

/-- `struct.unpack(format, raw)`: the buffer length must equal
`calcsize(format)` exactly, otherwise `struct.error`. -/
def structUnpack : List FmtCode → List Nat → Option (List PackVal)
  | [], [] => some []
  | [], _ :: _ => none
  | c :: cs, bs =>
      if fmtSize c ≤ bs.length then do
        let rest ← structUnpack cs (bs.drop (fmtSize c))
        pure (unpackValue c (bs.take (fmtSize c)) :: rest)
      else none

/-- A Python value as handed to / produced by the record codec. -/
inductive PyVal where
  /-- A Python int. -/
  | vint (n : Int)
  /-- A Python float, by the 32-bit IEEE pattern it packs to. -/
  | vfloat (bits : Nat)
  /-- A Python str, by its encoded bytes. -/
  | vstr (bs : List Nat)
  /-- A `'YYYY-MM-DD'` date literal, by the timestamp `strptime` assigns it. -/
  | vdate (ts : Int)
  /-- The `strftime('%Y-%m-%d')` rendering of timestamp `ts`, as produced by
  `bytes_to_values` for DATE columns. -/
  | vdateStr (ts : Int)
  /-- An `'x,y'` 2D point, by the two 32-bit patterns of its coordinates. -/
  | vpair (x y : Nat)
  /-- The `f"{x},{y}"` string produced by `bytes_to_values` for ARRAY[FLOAT]. -/
  | vpairStr (x y : Nat)
deriving DecidableEq, Repr

/-- `TypeConverter.convert_value` (utils/type_converter.py lines 7-23) for a
value that already has the column's Python type, followed by the tuple
flattening done in `convert_record`: the result is the list of packable values
this column contributes.  VARCHAR values are NUL-padded with `ljust` (no
truncation); a value of the wrong shape raises. -/
def convert_value (v : PyVal) (t : ColType) : Option (List PackVal) :=
  match t, v with
  | ColType.int, PyVal.vint n => some [PackVal.pint n]
  | ColType.float, PyVal.vfloat b => some [PackVal.pfloat b]
  | ColType.varchar n, PyVal.vstr bs =>
      some [PackVal.pbytes (bs ++ List.replicate (n - bs.length) 0)]
  | ColType.date, PyVal.vdate ts => some [PackVal.pint ts]
  | ColType.arrayFloat, PyVal.vpair x y => some [PackVal.pfloat x, PackVal.pfloat y]
  | _, _ => none

/-- `TypeConverter.convert_record` (utils/type_converter.py lines 25-43):
prepends the deletion marker `b'\x00'` to the converted values and packs the
whole list with the table's format string. -/
def convert_record (values : List PyVal) (columns : List Column)
    (fmt : List FmtCode) : Option (List Nat) := do
  let converted ← (values.zip columns).mapM (fun vc => convert_value vc.1 vc.2.type)
  structPack fmt (PackVal.pbytes [0] :: converted.flatten)

/-- Strip trailing NUL bytes, as `bytes.rstrip(b'\x00')` does. -/
def rstripZeros (bs : List Nat) : List Nat :=
  (bs.reverse.dropWhile (fun b => b = 0)).reverse

/-- The per-column decoding loop of `TypeConverter.bytes_to_values`
(utils/type_converter.py lines 52-81), starting at `value_idx = 1` to skip the
deletion marker. -/
def decodeColumns : List Column → List PackVal → Nat → Option (List PyVal)
  | [], _, _ => some []
  | c :: cs, values, idx =>
    match c.type with
    | ColType.int => do
        match ← values[idx]? with
        | PackVal.pint n => (decodeColumns cs values (idx + 1)).map (PyVal.vint n :: ·)
        | _ => none
    | ColType.float => do
        match ← values[idx]? with
        | PackVal.pfloat b => (decodeColumns cs values (idx + 1)).map (PyVal.vfloat b :: ·)
        | _ => none
    | ColType.varchar _ => do
        match ← values[idx]? with
        | PackVal.pbytes bs =>
            (decodeColumns cs values (idx + 1)).map (PyVal.vstr (rstripZeros bs) :: ·)
        | _ => none
    | ColType.date => do
        match ← values[idx]? with
        | PackVal.pint n => (decodeColumns cs values (idx + 1)).map (PyVal.vdateStr n :: ·)
        | _ => none
    | ColType.arrayFloat => do
        match ← values[idx]?, ← values[idx + 1]? with
        | PackVal.pfloat x, PackVal.pfloat y =>
            (decodeColumns cs values (idx + 2)).map (PyVal.vpairStr x y :: ·)
        | _, _ => none

/-- `TypeConverter.bytes_to_values` (utils/type_converter.py lines 45-82). -/
def bytes_to_values (raw : List Nat) (fmt : List FmtCode)
    (columns : List Column) : Option (List PyVal) := do
  let values ← structUnpack fmt raw
  decodeColumns columns values 1

/-! ## Theorems for C3 and C4 -/

/-- C3 failing input: the format string generated for the one-column schema
`(a INT)` is `"=i"`, with no field for the deletion marker, so
`convert_record` — which prepends `b'\x00'` and then packs — always raises
`struct.error` (two items for a one-code format).  The tuple itself is
well-typed: `convert_value` succeeds on it.  Encoding therefore fails on every
well-typed tuple, contradicting the round-trip claim. -/
theorem convert_record_fails_on_well_typed_tuple :
    create_format_string [⟨"a", ColType.int⟩] = [FmtCode.fi] ∧
    (convert_value (PyVal.vint 7) ColType.int).isSome = true ∧
    convert_record [PyVal.vint 7] [⟨"a", ColType.int⟩]
      (create_format_string [⟨"a", ColType.int⟩]) = none := by
  refine ⟨rfl, rfl, rfl⟩

/-- C4: for every schema, `struct.calcsize` of the generated format string is
exactly the sum of the column sizes — the leading tombstone byte demanded by
the record-layout claim is missing, so the record size used by the heap
operations is `Σ column sizes`, not `1 + Σ column sizes` (shown concretely for
the schema `(id INT, name VARCHAR[20])`: 24, not 25). -/
theorem record_size_missing_tombstone :
    (∀ columns : List Column,
      calcsize (create_format_string columns) =
        (columns.map (fun c => colSize c.type)).sum) ∧
    calcsize (create_format_string
      [⟨"id", ColType.int⟩, ⟨"name", ColType.varchar 20⟩]) = 24 ∧
    1 + (([⟨"id", ColType.int⟩, ⟨"name", ColType.varchar 20⟩] : List Column).map
      (fun c => colSize c.type)).sum = 25 := by
  refine ⟨?_, rfl, rfl⟩
  intro columns
  induction columns with
  | nil => rfl
  | cons c cs ih =>
    have hstep : create_format_string (c :: cs) = (match c.type with
      | ColType.int => [FmtCode.fi]
      | ColType.varchar n => [FmtCode.fs n]
      | ColType.date => [FmtCode.fI]
      | ColType.float => [FmtCode.ff]
      | ColType.arrayFloat => [FmtCode.ff, FmtCode.ff]) ++
        create_format_string cs := rfl
    have happ : ∀ a b : List FmtCode, calcsize (a ++ b) = calcsize a + calcsize b := by
      intro a b; simp [calcsize]
    have hsum : ((c :: cs).map (fun c => colSize c.type)).sum =
        colSize c.type + (cs.map (fun c => colSize c.type)).sum := rfl
    rw [hstep, happ, hsum, ih]
    cases c.type <;> rfl

/-! ## The heap cursor class (`src/db/cursors/line_cursor.py`)

select.py (line 2), delete.py (line 7) and compaction.py (line 5) all import
`LineCursor` from `..cursors.line_cursor`, whose constructor signature is
`def __init__(self, table_info)` — a single positional parameter besides
`self` (line_cursor.py line 9).  Every call site in those three modules
passes two positional arguments, `LineCursor(<data file path>, <record
size>)`, so under Python call semantics each such construction raises
`TypeError` before the constructor body runs. -/

/-- Number of positional parameters of
`cursors.line_cursor.LineCursor.__init__` besides `self` (line_cursor.py
line 9: `def __init__(self, table_info)`). -/
def lineCursorInitArity : Nat := 1

/-- The exception Python raises when `LineCursor` is called with two
positional arguments against the one-parameter signature. -/
def lineCursorTypeErrorMsg : String :=
  "TypeError: LineCursor.__init__ takes 2 positional arguments but 3 were given"

/-- Python call semantics for a `LineCursor(args...)` construction: it
proceeds iff the number of positional arguments matches the arity of
`__init__`, otherwise the call raises `TypeError` before the body runs. -/
def constructLineCursor (args : List String) : Except String Unit :=
  if args.length = lineCursorInitArity then Except.ok ()
  else Except.error lineCursorTypeErrorMsg

/-! ## SELECT (`src/db/commands/select.py`)

`SelectCommand.execute` (lines 30-66) constructs the heap cursor at line 45
as `LineCursor(table_info["data_file"], record_size)` — two positional
arguments against the one-parameter class imported at line 2 — so every
execution over a found table raises `TypeError` there.  The routing of lines
53-56 (queries with filters to `_get_filtered_records`, filter-free queries
to `_get_all_records`) and the scans themselves sit in `execute`'s
unreachable success branch; the indexed path `_get_records_with_index` is
never invoked by `execute` at all.  The heap file is modelled as the list of
its fixed-size records. -/

/-- Python `str()` of a decoded value.  `str` of an int is its decimal
rendering; `str` of a str is the string itself.  The remaining constructors
are rendered injectively from their arguments; the exact Python float and date
formatting is not reproduced (no theorem in this file depends on it). -/
def pyStr : PyVal → String
  | PyVal.vint n => toString n
  | PyVal.vstr bs => String.mk (bs.map Char.ofNat)
  | PyVal.vfloat b => "float:" ++ toString b
  | PyVal.vdate ts => "date:" ++ toString ts
  | PyVal.vdateStr ts => "date:" ++ toString ts
  | PyVal.vpair x y => toString x ++ "," ++ toString y
  | PyVal.vpairStr x y => toString x ++ "," ++ toString y

/-- A SELECT/DELETE filter `{column, operation, value | from, to}`.  The
`value`, `fromVal` and `toVal` fields hold the strings the scan compares
against (`str(filter["value"])`, `filter["from"].strip('"')`,
`filter["to"].strip('"')`). -/
structure Filter where
  column : String
  operation : String
  value : String
  fromVal : String
  toVal : String
deriving DecidableEq, Repr

/-- Column-index lookup `next((i for i, c in enumerate(columns) if
c["name"] == col), -1)`, with `none` standing for `-1`. -/
def findColIdx (columns : List Column) (name : String) : Option Nat :=
  columns.findIdx? (fun c => c.name = name)

/-- `SelectCommand._get_all_records` (select.py lines 68-91): sequential scan
that keeps a record only when its first byte — the deletion marker — is 0.
`none` models an exception escaping the scan. -/
def get_all_records (heap : List (List Nat)) (fmt : List FmtCode)
    (columns : List Column) : Option (List (List PyVal)) :=
  heap.foldlM (fun records raw =>
    if raw = [] then some records
    else if raw.head? = some 0 then
      (bytes_to_values raw fmt columns).map (fun r => records ++ [r])
    else some records) []

/-- `SelectCommand._get_filtered_records` (select.py lines 207-247):
sequential scan that decodes every record and applies the filter predicate —
`str(record[col_idx]) == str(filter["value"])` for `=` and
`from_val <= str(record[col_idx]) <= to_val` for `BETWEEN` — with **no check
of the deletion marker**. -/
def get_filtered_records (heap : List (List Nat)) (fmt : List FmtCode)
    (columns : List Column) (filter : Filter) : Option (List (List PyVal)) :=
  match findColIdx columns filter.column with
  | none => some []
  | some colIdx =>
      heap.foldlM (fun records raw =>
        if raw = [] then some records
        else do
          let record ← bytes_to_values raw fmt columns
          let rv ← record[colIdx]?
          if filter.operation = "=" then
            if pyStr rv = filter.value then pure (records ++ [record])
            else pure records
          else if filter.operation = "BETWEEN" then
            if filter.fromVal ≤ pyStr rv ∧ pyStr rv ≤ filter.toVal then
              pure (records ++ [record])
            else pure records
          else pure records) []

/-- The record-fetch step of `SelectCommand.execute` (select.py lines 53-56):
queries with filters go to `_get_filtered_records`, queries without filters to
`_get_all_records`.  Reached only from `execute`'s unreachable success
branch. -/
def SelectCommand.getRecords (heap : List (List Nat)) (fmt : List FmtCode)
    (columns : List Column) (filters : List Filter) : Option (List (List PyVal)) :=
  match filters with
  | [] => get_all_records heap fmt columns
  | f :: _ => get_filtered_records heap fmt columns f

/-! ## Theorem for C2 -/

/-- The slice of the table descriptor `SelectCommand.execute` reads: the
data file path and the column schema.  The descriptor's `format_str` is the
string `_create_format_string` produced for the schema, so the record size
computed at line 44 is `calcsize (create_format_string columns)`. -/
structure STableInfo where
  data_file : String
  columns : List Column
deriving DecidableEq, Repr

/-- `SelectCommand.execute` (select.py lines 30-66): the table-info check of
lines 36-39 (an exception when the table is missing), the record size of
line 44, the cursor construction of line 45 —
`LineCursor(table_info["data_file"], record_size)`, two positional arguments
against the one-parameter class, which raises — and, in the success branch
that construction makes unreachable, the routing of lines 53-56 over the two
scans.  `Except.error` models an exception escaping `execute`. -/
def SelectCommand.execute (tio : Option STableInfo) (heap : List (List Nat))
    (filters : List Filter) : Except String (List (List PyVal)) :=
  match tio with
  | none => Except.error "Exception: Table not found"
  | some ti =>
      let record_size := calcsize (create_format_string ti.columns)
      match constructLineCursor [ti.data_file, toString record_size] with
      | Except.error e => Except.error e
      | Except.ok _ =>
          match SelectCommand.getRecords heap (create_format_string ti.columns)
              ti.columns filters with
          | none => Except.error "Exception: scan failed"
          | some records => Except.ok records

/-- C2: no SELECT over a found table returns a records list at all — for
every table descriptor, every heap state and every filter list (none,
equality or BETWEEN), `execute` raises the line-45 `LineCursor` construction
`TypeError` before any routing or record read, so the behaviour the claim
quantifies over (returning the matching live rows) is unreachable and its
guarantee about "the returned records list" is vacuous. -/
theorem select_raises_before_scan :
    ∀ (ti : STableInfo) (heap : List (List Nat)) (filters : List Filter),
      SelectCommand.execute (some ti) heap filters =
        Except.error lineCursorTypeErrorMsg := by
  intro ti heap filters
  rfl

/-! ## Table stats, DELETE and compaction
(`src/db/commands/delete.py`, `src/db/storage_management/compaction.py`)

`DeleteCommand.execute` calls `table_manager.update_table_stats` and
`table_manager.should_compact`, and `TableCompactor.compact_table` calls
`table_manager._save_table_info`; none of these three methods exists in the
`TableManager` under src/ — only their callers remain — so they are modelled
from the spec below. -/

/-- The per-table stats block of the descriptor (spec §3):
`{total_records, deleted_records, last_compaction}`. -/
structure TableStats where
  total_records : Nat
  deleted_records : Nat
  last_compaction : Int
deriving DecidableEq, Repr

/-- Modelled from the spec: `TableManager.should_compact` is missing from
src/ (its caller at delete.py line 133 remains).  Spec §4.5: "`should_compact`
returns true iff `total > 0 ∧ deleted/total > 0.20`".  The ratio comparison is
taken exactly: `deleted/total > 1/5` iff `5 * deleted > total`. -/
def should_compact (stats : TableStats) : Bool :=
  0 < stats.total_records && stats.total_records < 5 * stats.deleted_records

/-- Modelled from the spec: `TableManager.update_table_stats` is missing from
src/ (callers at insert.py line 151 and delete.py line 130 remain).  Spec §4.5
`update_stats(total_delta, deleted_delta)` adds the deltas to the counters. -/
def update_table_stats (stats : TableStats) (totalDelta deletedDelta : Nat) :
    TableStats :=
  { stats with
    total_records := stats.total_records + totalDelta
    deleted_records := stats.deleted_records + deletedDelta }

/-- The inputs `DeleteCommand.execute` (delete.py lines 19-149) branches on:
whether `get_table_info` found the table, the data file path and column
schema from the descriptor, the parsed filters, whether the filter column
exists in the schema and appears in `table_info["indexes"]`, the result of
`index.search`, the raw record the try-block would read at that position
(held abstract — see `DeleteCommand.execute`), and the table's stats. -/
structure DeleteContext where
  tableFound : Bool
  data_file : String
  columns : List Column
  filters : List Filter
  colIdx : Option Nat
  columnIndexed : Bool
  searchResult : Option Int
  record : Option (List Nat)
  stats : TableStats
deriving Repr

/-- The observable outcome of `DeleteCommand.execute`: the uncaught
exception escaping it (if any), whether the returned status dictionary is an
error, whether the tombstone byte was written, whether
`compactor.compact_table` was invoked, and the stats after the update. -/
structure DeleteEffects where
  raised : Option String
  isError : Bool
  tombstoned : Bool
  compactorRan : Bool
  stats : TableStats
deriving DecidableEq, Repr

/-- `DeleteCommand.execute` (delete.py lines 19-149).  The checks of lines
25-99 are taken in source order.  After a successful index search, line 102
computes `record_size = struct.calcsize(table_info["format_str"])` and line
103 constructs `LineCursor(table_info["data_file"], record_size)` — two
positional arguments against the one-parameter class imported at line 7 —
outside the `try` that begins at line 105, so the `TypeError` escapes
`execute` uncaught.  The `try` block of lines 106-148 (record read,
tombstone write, stats update, `should_compact` check, compactor call) is
transcribed in the success branch that construction makes unreachable, with
the record read held abstract in `ctx.record` because the cursor class also
lacks the `goto_record`, zero-argument `read_record` and `overwrite_current`
methods the block calls; the already-deleted check at line 118 compares the
first unpacked field of the record with `b'\x01'`. -/
def DeleteCommand.execute (ctx : DeleteContext) : DeleteEffects :=
  if ctx.tableFound = false then ⟨none, true, false, false, ctx.stats⟩
  else
    match ctx.filters with
    | [] => ⟨none, true, false, false, ctx.stats⟩
    | filter :: _ =>
      if filter.operation ≠ "=" then ⟨none, true, false, false, ctx.stats⟩
      else
        match ctx.colIdx with
        | none => ⟨none, true, false, false, ctx.stats⟩
        | some _ =>
          if ctx.columnIndexed = false then ⟨none, true, false, false, ctx.stats⟩
          else
            match ctx.searchResult with
            | none => ⟨none, true, false, false, ctx.stats⟩
            | some _ =>
              let record_size := calcsize (create_format_string ctx.columns)
              match constructLineCursor [ctx.data_file, toString record_size] with
              | Except.error e => ⟨some e, false, false, false, ctx.stats⟩
              | Except.ok _ =>
                match ctx.record with
                | none => ⟨none, true, false, false, ctx.stats⟩
                | some record =>
                  if record.head? = some 1 then
                    ⟨none, false, false, false, ctx.stats⟩
                  else
                    let stats2 := update_table_stats ctx.stats 0 1
                    if should_compact stats2 then ⟨none, false, true, true, stats2⟩
                    else ⟨none, false, true, false, stats2⟩

/-! ## Theorem for C7 -/

/-- A compaction-eligible `DeleteContext`: the table is found, the filter is
an equality on an existing indexed column, the index search finds the
record, the record is live, and the stats (4 total, 0 deleted) are such that
the deletion would lift the ratio to `1/4 > 0.20`. -/
def c7Ctx : DeleteContext :=
  ⟨true, "table.dat", [⟨"a", ColType.int⟩], [⟨"a", "=", "1", "", ""⟩],
    some 0, true, some 0, some [0, 1, 0, 0, 0], ⟨4, 0, 0⟩⟩

/-- C7: `should_compact` (modelled from the spec; the method is absent from
src/) is true iff the table is non-empty and the deleted ratio strictly
exceeds 0.20 — but no DELETE of the source can run the compactor: for every
input `DeleteCommand.execute` leaves `compactorRan = false`, because the
line-103 cursor construction raises before the tombstone write, the stats
update and the `should_compact` check, and at the compaction-eligible input
`c7Ctx` the exception escaping `execute` is exactly the `LineCursor`
construction `TypeError`. -/
theorem delete_raises_before_compaction :
    (∀ s : TableStats, should_compact s = true ↔
      0 < s.total_records ∧
        (1 : ℚ) / 5 < (s.deleted_records : ℚ) / (s.total_records : ℚ)) ∧
    (∀ ctx : DeleteContext, (DeleteCommand.execute ctx).compactorRan = false) ∧
    (DeleteCommand.execute c7Ctx).raised = some lineCursorTypeErrorMsg := by
  refine ⟨?_, ?_, rfl⟩
  · intro s
    simp only [should_compact, Bool.and_eq_true, decide_eq_true_eq]
    constructor
    · rintro ⟨h1, h2⟩
      refine ⟨h1, ?_⟩
      rw [div_lt_div_iff₀ (by norm_num) (by exact_mod_cast h1)]
      have h3 : (s.total_records : ℚ) < 5 * s.deleted_records := by exact_mod_cast h2
      linarith
    · rintro ⟨h1, h2⟩
      refine ⟨h1, ?_⟩
      rw [div_lt_div_iff₀ (by norm_num) (by exact_mod_cast h1)] at h2
      have h3 : (s.total_records : ℚ) < 5 * s.deleted_records := by linarith
      exact_mod_cast h3
  · intro ctx
    obtain ⟨tf, df, cols, fls, ci, cidx, sr, rec, st⟩ := ctx
    cases tf
    · rfl
    · cases fls with
      | nil => rfl
      | cons f fs =>
        by_cases hop : f.operation = "="
        · cases ci with
          | none => simp [DeleteCommand.execute, hop]
          | some i =>
            cases cidx
            · simp [DeleteCommand.execute, hop]
            · cases sr with
              | none => simp [DeleteCommand.execute, hop]
              | some pos => simp [DeleteCommand.execute, hop, constructLineCursor,
                  lineCursorInitArity]
        · simp [DeleteCommand.execute, hop]

/-! ## Compaction (C8) -/

/-- A leaf entry `(key_bytes, ptr)`. -/
abbrev LeafEntry := Nat × Int

/-- The manual binary search of `_insert_into_temp_entries` (lines 297-304):
`while low < high: mid = (low+high)//2; if entries[mid][0] < key: low = mid+1
else: high = mid`. -/
def leafLowerBound (entries : List LeafEntry) (key : Nat) (low high : Nat) : Nat :=
  if low < high then
    if (entries.getD ((low + high) / 2) (0, 0)).1 < key then
      leafLowerBound entries key ((low + high) / 2 + 1) high
    else
      leafLowerBound entries key low ((low + high) / 2)
  else low
termination_by high - low
decreasing_by
  · have h1 : low ≤ (low + high) / 2 :=
      (Nat.le_div_iff_mul_le (by omega)).mpr (by omega)
    omega
  · have h2 : (low + high) / 2 < high := Nat.div_lt_of_lt_mul (by omega)
    omega

/-- The duplicate-skipping loop (lines 306-308): `while low < len(entries)
and entries[low][0] == key: low += 1`. -/
def skipEqualKeys (entries : List LeafEntry) (key : Nat) (low : Nat) : Nat :=
  if h : low < entries.length ∧ (entries.getD low (0, 0)).1 = key then
    skipEqualKeys entries key (low + 1)
  else low
termination_by entries.length - low
decreasing_by omega

/-- `BPlusTreeIndex._insert_into_temp_entries` (lines 287-310): insert
`(key, ptr)` into the sorted entry list, after all entries with an equal key. -/
def insert_into_temp_entries (entries : List LeafEntry) (key : Nat) (ptr : Int) :
    List LeafEntry :=
  if entries = [] then [(key, ptr)]
  else if (entries.getLastD (0, 0)).1 < key then entries ++ [(key, ptr)]
  else
    let low := skipEqualKeys entries key (leafLowerBound entries key 0 entries.length)
    entries.take low ++ [(key, ptr)] ++ entries.drop low

/-! Auxiliary lemmas about sorted entry lists. -/

theorem getD_mono_of_sorted (l : List LeafEntry)
    (hs : List.Pairwise (fun a b : LeafEntry => a.1 ≤ b.1) l)
    {i j : Nat} (hij : i ≤ j) (hj : j < l.length) :
    (l.getD i (0, 0)).1 ≤ (l.getD j (0, 0)).1 := by
  rcases Nat.eq_or_lt_of_le hij with rfl | hlt
  · exact le_refl _
  · have hi : i < l.length := lt_trans hlt hj
    rw [List.getD_eq_getElem l _ hi, List.getD_eq_getElem l _ hj]
    exact List.pairwise_iff_getElem.mp hs i j hi hj hlt

theorem getLastD_mem_of_ne_nil :
    ∀ (l : List LeafEntry) (d : LeafEntry), l ≠ [] → l.getLastD d ∈ l
  | [a], _, _ => by simp
  | a :: b :: t, d, _ => by
      rw [List.getLastD_cons]
      exact List.mem_cons_of_mem a (getLastD_mem_of_ne_nil (b :: t) a (by simp))

theorem sorted_all_le_getLastD (l : List LeafEntry)
    (hs : List.Pairwise (fun a b : LeafEntry => a.1 ≤ b.1) l) :
    ∀ (d e : LeafEntry), e ∈ l → e.1 ≤ (l.getLastD d).1 := by
  induction l with
  | nil => intro d e he; cases he
  | cons a t ih =>
    intro d e he
    rw [List.getLastD_cons]
    have hhead : ∀ x ∈ t, a.1 ≤ x.1 := fun x hx => (List.pairwise_cons.mp hs).1 x hx
    rcases List.mem_cons.mp he with ha | het
    · rw [ha]
      cases ht : t with
      | nil => subst ht; exact le_refl _
      | cons b t2 =>
          subst ht
          exact hhead _ (getLastD_mem_of_ne_nil (b :: t2) a (by simp))
    · exact ih (List.pairwise_cons.mp hs).2 a e het

/-- The binary search returns the lower bound: everything strictly below the
result is `< key`, everything at or above it (within bounds carrying that
invariant) is `≥ key`. -/
theorem leafLowerBound_spec (entries : List LeafEntry) (key : Nat)
    (hs : List.Pairwise (fun a b : LeafEntry => a.1 ≤ b.1) entries) :
    ∀ (d low high : Nat), high - low = d → low ≤ high → high ≤ entries.length →
    (∀ i, i < low → (entries.getD i (0, 0)).1 < key) →
    (∀ i, high ≤ i → i < entries.length → key ≤ (entries.getD i (0, 0)).1) →
    low ≤ leafLowerBound entries key low high ∧
    leafLowerBound entries key low high ≤ high ∧
    (∀ i, i < leafLowerBound entries key low high →
      (entries.getD i (0, 0)).1 < key) ∧
    (∀ i, leafLowerBound entries key low high ≤ i → i < entries.length →
      key ≤ (entries.getD i (0, 0)).1) := by
  intro d
  induction d using Nat.strong_induction_on with
  | _ d ih =>
    intro low high hd hlh hhigh hlo hhi
    rw [leafLowerBound]
    by_cases h : low < high
    · have hm1 : low ≤ (low + high) / 2 :=
        (Nat.le_div_iff_mul_le (by omega)).mpr (by omega)
      have hm2 : (low + high) / 2 < high := Nat.div_lt_of_lt_mul (by omega)
      by_cases hc : (entries.getD ((low + high) / 2) (0, 0)).1 < key
      · simp only [if_pos h, if_pos hc]
        have hrec := ih (high - ((low + high) / 2 + 1)) (by omega)
          ((low + high) / 2 + 1) high rfl (by omega) hhigh
          (fun i hi => by
            have hle : i ≤ (low + high) / 2 := by omega
            exact lt_of_le_of_lt
              (getD_mono_of_sorted entries hs hle (by omega)) hc)
          hhi
        exact ⟨by omega, hrec.2.1, hrec.2.2.1, hrec.2.2.2⟩
      · simp only [if_pos h, if_neg hc]
        have hkey : key ≤ (entries.getD ((low + high) / 2) (0, 0)).1 := by omega
        have hrec := ih ((low + high) / 2 - low) (by omega)
          low ((low + high) / 2) rfl (by omega) (by omega) hlo
          (fun i hi hilen =>
            le_trans hkey (getD_mono_of_sorted entries hs hi hilen))
        exact ⟨hrec.1, by omega, hrec.2.2.1, hrec.2.2.2⟩
    · simp only [if_neg h]
      exact ⟨le_refl _, by omega, hlo, fun i hi hilen => hhi i (by omega) hilen⟩

/-- The duplicate-skipping loop lands just past the last entry equal to
`key`: everything below the result is `≤ key`, and the entry at the result
(if any) differs from `key`. -/
theorem skipEqualKeys_spec (entries : List LeafEntry) (key : Nat) :
    ∀ (d low : Nat), entries.length - low = d → low ≤ entries.length →
    (∀ i, i < low → (entries.getD i (0, 0)).1 ≤ key) →
    low ≤ skipEqualKeys entries key low ∧
    skipEqualKeys entries key low ≤ entries.length ∧
    (∀ i, i < skipEqualKeys entries key low → (entries.getD i (0, 0)).1 ≤ key) ∧
    ¬ (skipEqualKeys entries key low < entries.length ∧
       (entries.getD (skipEqualKeys entries key low) (0, 0)).1 = key) := by
  intro d
  induction d using Nat.strong_induction_on with
  | _ d ih =>
    intro low hd hlow hle
    rw [skipEqualKeys]
    by_cases h : low < entries.length ∧ (entries.getD low (0, 0)).1 = key
    · simp only [dif_pos h]
      have hrec := ih (entries.length - (low + 1)) (by omega) (low + 1) rfl
        (by omega)
        (fun i hi => by
          rcases Nat.lt_succ_iff_lt_or_eq.mp hi with hi2 | rfl
          · exact hle i hi2
          · exact le_of_eq h.2)
      exact ⟨by omega, hrec.2.1, hrec.2.2.1, hrec.2.2.2⟩
    · simp only [dif_neg h]
      exact ⟨le_refl _, hlow, hle, h⟩

theorem take_mem_le (l : List LeafEntry) (n key : Nat)
    (h : ∀ i, i < n → (l.getD i (0, 0)).1 ≤ key) :
    ∀ e ∈ l.take n, e.1 ≤ key := by
  intro e he
  obtain ⟨i, hi, hget⟩ := List.mem_iff_getElem.mp he
  have hlen : i < l.length := by
    have := hi
    simp only [List.length_take] at this
    omega
  have hin : i < n := by
    have := hi
    simp only [List.length_take] at this
    omega
  have hgt : (l.take n)[i] = l[i] := List.getElem_take _
  rw [← hget, hgt, ← List.getD_eq_getElem l (0, 0) hlen]
  exact h i hin

theorem drop_mem_gt (l : List LeafEntry) (n key : Nat) (hn : n ≤ l.length)
    (h : ∀ i, n ≤ i → i < l.length → key < (l.getD i (0, 0)).1) :
    ∀ e ∈ l.drop n, key < e.1 := by
  intro e he
  obtain ⟨i, hi, hget⟩ := List.mem_iff_getElem.mp he
  have hlen : n + i < l.length := by
    have := hi
    simp only [List.length_drop] at this
    omega
  have hgt : (l.drop n)[i] = l[n + i] := List.getElem_drop _
  rw [← hget, hgt, ← List.getD_eq_getElem l (0, 0) hlen]
  exact h (n + i) (by omega) hlen

/-- The insertion point of `_insert_into_temp_entries` on a sorted list:
the result is the input with `(key, ptr)` spliced in at a position `n` such
that everything before it has key `≤ key` and everything after it has key
`> key`. -/
theorem insert_into_temp_entries_decomp (entries : List LeafEntry)
    (key : Nat) (ptr : Int)
    (hs : List.Pairwise (fun a b : LeafEntry => a.1 ≤ b.1) entries) :
    ∃ n, n ≤ entries.length ∧
      insert_into_temp_entries entries key ptr =
        entries.take n ++ (key, ptr) :: entries.drop n ∧
      (∀ e ∈ entries.take n, e.1 ≤ key) ∧
      (∀ e ∈ entries.drop n, key < e.1) := by
  by_cases hnil : entries = []
  · subst hnil
    exact ⟨0, by simp [insert_into_temp_entries]⟩
  · by_cases hlast : (entries.getLastD (0, 0)).1 < key
    · refine ⟨entries.length, le_refl _, ?_, ?_, ?_⟩
      · rw [insert_into_temp_entries, if_neg hnil, if_pos hlast,
          List.take_length, List.drop_length]
      · intro e he
        have he2 : e ∈ entries := List.mem_of_mem_take he
        exact le_of_lt (lt_of_le_of_lt
          (sorted_all_le_getLastD entries hs (0, 0) e he2) hlast)
      · intro e he
        simp at he
    · have hlb := leafLowerBound_spec entries key hs
        (entries.length - 0) 0 entries.length rfl (by omega) (le_refl _)
        (fun i hi => by omega) (fun i hi hilen => by omega)
      set r := leafLowerBound entries key 0 entries.length with hr
      have hsk := skipEqualKeys_spec entries key (entries.length - r) r rfl
        hlb.2.1 (fun i hi => le_of_lt (hlb.2.2.1 i hi))
      set n := skipEqualKeys entries key r with hn
      refine ⟨n, hsk.2.1, ?_, ?_, ?_⟩
      · rw [insert_into_temp_entries, if_neg hnil, if_neg hlast]
        show entries.take n ++ [(key, ptr)] ++ entries.drop n =
          entries.take n ++ (key, ptr) :: entries.drop n
        simp
      · exact take_mem_le entries n key hsk.2.2.1
      · refine drop_mem_gt entries n key hsk.2.1 ?_
        intro i hi hilen
        have hge : key ≤ (entries.getD i (0, 0)).1 :=
          hlb.2.2.2 i (le_trans hsk.1 hi) hilen
        rcases Nat.eq_or_lt_of_le hi with heq | hlt
        · subst heq
          rcases Nat.lt_or_ge key (entries.getD n (0, 0)).1 with h2 | h2
          · exact h2
          · exact absurd ⟨hilen, le_antisymm h2 hge⟩ hsk.2.2.2
        · have hne : ¬ (entries.getD n (0, 0)).1 = key := fun hEq => by
            rcases Nat.lt_or_ge n entries.length with h3 | h3
            · exact hsk.2.2.2 ⟨h3, hEq⟩
            · omega
          have hgeN : key ≤ (entries.getD n (0, 0)).1 :=
            hlb.2.2.2 n hsk.1 (by omega)
          have hstep : (entries.getD n (0, 0)).1 ≤ (entries.getD i (0, 0)).1 :=
            getD_mono_of_sorted entries hs (le_of_lt hlt) hilen
          omega

/-! ## Theorem for C6 -/

/-- C6: on a sorted entry list, `_insert_into_temp_entries` returns a list
that is still sorted by key, is a permutation of the old list plus the new
pair (same multiset), and places the new pair after every existing entry with
an equal key: the list splits as `before ++ (key, ptr) :: after` with every
entry of `before` having key `≤ key` (so all equal keys precede the new pair)
and every entry of `after` having key `> key`. -/
theorem insert_into_temp_entries_spec (entries : List LeafEntry)
    (key : Nat) (ptr : Int)
    (hs : List.Pairwise (fun a b : LeafEntry => a.1 ≤ b.1) entries) :
    List.Pairwise (fun a b : LeafEntry => a.1 ≤ b.1)
      (insert_into_temp_entries entries key ptr) ∧
    (insert_into_temp_entries entries key ptr).Perm ((key, ptr) :: entries) ∧
    ∃ n, n ≤ entries.length ∧
      insert_into_temp_entries entries key ptr =
        entries.take n ++ (key, ptr) :: entries.drop n ∧
      (∀ e ∈ entries.take n, e.1 ≤ key) ∧
      (∀ e ∈ entries.drop n, key < e.1) := by
  obtain ⟨n, hn, hsplit, hbefore, hafter⟩ :=
    insert_into_temp_entries_decomp entries key ptr hs
  refine ⟨?_, ?_, n, hn, hsplit, hbefore, hafter⟩
  · rw [hsplit]
    have htake : List.Pairwise (fun a b : LeafEntry => a.1 ≤ b.1)
        (entries.take n) := hs.sublist (List.take_sublist n entries)
    have hdrop : List.Pairwise (fun a b : LeafEntry => a.1 ≤ b.1)
        (entries.drop n) := hs.sublist (List.drop_sublist n entries)
    rw [List.pairwise_append]
    refine ⟨htake, ?_, ?_⟩
    · rw [List.pairwise_cons]
      exact ⟨fun e he => le_of_lt (hafter e he), hdrop⟩
    · intro a ha b hb
      rcases List.mem_cons.mp hb with rfl | hb2
      · exact hbefore a ha
      · exact le_trans (hbefore a ha) (le_of_lt (hafter b hb2))
  · rw [hsplit]
    have hperm : (entries.take n ++ (key, ptr) :: entries.drop n).Perm
        ((key, ptr) :: (entries.take n ++ entries.drop n)) := List.perm_middle
    rw [List.take_append_drop] at hperm
    exact hperm

/-- Witness for C6 on the sorted list `[(1,10), (3,30), (3,31), (5,50)]` with
the duplicate key 3. -/
theorem insert_into_temp_entries_spec_witness :
    List.Pairwise (fun a b : LeafEntry => a.1 ≤ b.1)
      (insert_into_temp_entries [(1, 10), (3, 30), (3, 31), (5, 50)] 3 99) ∧
    (insert_into_temp_entries [(1, 10), (3, 30), (3, 31), (5, 50)] 3 99).Perm
      ((3, 99) :: [(1, 10), (3, 30), (3, 31), (5, 50)]) ∧
    ∃ n, n ≤ ([(1, 10), (3, 30), (3, 31), (5, 50)] : List LeafEntry).length ∧
      insert_into_temp_entries [(1, 10), (3, 30), (3, 31), (5, 50)] 3 99 =
        ([(1, 10), (3, 30), (3, 31), (5, 50)] : List LeafEntry).take n ++
          (3, 99) :: ([(1, 10), (3, 30), (3, 31), (5, 50)] : List LeafEntry).drop n ∧
      (∀ e ∈ ([(1, 10), (3, 30), (3, 31), (5, 50)] : List LeafEntry).take n,
        e.1 ≤ 3) ∧
      (∀ e ∈ ([(1, 10), (3, 30), (3, 31), (5, 50)] : List LeafEntry).drop n,
        3 < e.1) :=
  insert_into_temp_entries_spec [(1, 10), (3, 30), (3, 31), (5, 50)] 3 99
    (by decide)

/-! ## B+ tree pages and the index file
(`src/db/index_handling/implementations/bplus_tree.py`)

An index file is a sequence of 4096-byte pages; `_parse_page` turns a page's
bytes into a `LeafPage` (header, `(key, ptr)` entries, `next_leaf`) or an
`InternalPage` (header, keys, `len(keys) + 1` child pointers).  The file is
modelled at the parsed-page level: a store holds the pages (addressed by
`page_id`, as `BlockCursor.read_block` addresses blocks) and the
super-header's `root_block`. -/

/-- A parsed leaf page: id, `(key, ptr)` entries, `next_leaf`. -/
structure BLeafPage where
  pageId : Int
  entries : List LeafEntry
  nextLeaf : Int
deriving DecidableEq, Repr

/-- A parsed internal page: id, keys, child pointers. -/
structure BInternalPage where
  pageId : Int
  keys : List Nat
  pointers : List Int
deriving DecidableEq, Repr

/-- A parsed page (`BPlusTreeIndex._parse_page`). -/
inductive Page where
  | leaf (l : BLeafPage)
  | internal (p : BInternalPage)
deriving DecidableEq, Repr

/-- The `page_id` header field of a page. -/
def Page.pid : Page → Int
  | Page.leaf l => l.pageId
  | Page.internal p => p.pageId

/-- An index file: its pages and the super-header's `root_block`. -/
structure Store where
  pages : List Page
  root_block : Int
deriving DecidableEq, Repr

/-- `cursor.read_block(i)` followed by `_parse_page`: the page stored at
block `i`, or `none` when the block is missing/empty. -/
def readPage (s : Store) (i : Int) : Option Page :=
  s.pages.find? (fun p => p.pid == i)

/-- The loop body of `bisect.bisect_right` (`while lo < hi: mid = (lo+hi)//2;
if key < a[mid]: hi = mid else: lo = mid+1`).  Each iteration shrinks
`hi - lo` by at least one, so `hi - lo` serves as structural fuel. -/
def bisectRightGo (keys : List Nat) (key : Nat) : Nat → Nat → Nat → Nat
  | 0, lo, _ => lo
  | fuel + 1, lo, hi =>
    if lo < hi then
      if key < keys.getD ((lo + hi) / 2) 0 then
        bisectRightGo keys key fuel lo ((lo + hi) / 2)
      else
        bisectRightGo keys key fuel ((lo + hi) / 2 + 1) hi
    else lo

/-- `bisect.bisect_right(keys, key)` (bplus_tree.py lines 234, 262, 393, 498). -/
def bisectRight (keys : List Nat) (key : Nat) : Nat :=
  bisectRightGo keys key keys.length 0 keys.length

/-- `BPlusTreeIndex._find_leaf_page` (lines 265-279): descend from `block`,
choosing `pointers[bisect_right(keys, key)]` at internal pages, until a leaf
is reached.  `none` models a raised exception (a missing page fails the
`assert`, an out-of-range pointer index raises `IndexError`); the fuel bounds
the iterations of the source's unguarded `while True` loop. -/
def findLeaf (s : Store) : Nat → Int → Nat → Option BLeafPage
  | 0, _, _ => none
  | fuel + 1, block, key =>
    match readPage s block with
    | some (Page.leaf l) => some l
    | some (Page.internal p) =>
        match p.pointers[bisectRight p.keys key]? with
        | some child => findLeaf s fuel child key
        | none => none
    | none => none

/-- The entry loop of `range_search` (lines 246-251): skip keys `< begin`,
return the accumulated pointers as soon as a key `> end` is seen (`Sum.inl`,
the early `return ptrs`), otherwise append and continue to the next leaf
(`Sum.inr`). -/
def scanLeafEntries (entries : List LeafEntry) (lo hi : Nat) (acc : List Int) :
    List Int ⊕ List Int :=
  match entries with
  | [] => Sum.inr acc
  | (k, ptr) :: rest =>
      if k < lo then scanLeafEntries rest lo hi acc
      else if hi < k then Sum.inl acc
      else scanLeafEntries rest lo hi (acc ++ [ptr])

/-- The leaf-chain loop of `range_search` (lines 243-258): `while leaf and
leaf.page_id not in visited`, scan the leaf, stop on a negative `next_leaf`,
read and parse the next block (an unreadable block parses to `None` and ends
the walk; a non-leaf page raises `AttributeError` on `key_value_pairs`,
modelled as `none`).  The fuel bounds the loop iterations; the visited set
grows by a fresh page id each iteration. -/
def walkLeaves (s : Store) : Nat → List Int → Option Page → Nat → Nat →
    List Int → Option (List Int)
  | 0, _, _, _, _, _ => none
  | _ + 1, _, none, _, _, acc => some acc
  | fuel + 1, visited, some page, lo, hi, acc =>
      if page.pid ∈ visited then some acc
      else
        match page with
        | Page.internal _ => none
        | Page.leaf leaf =>
          match scanLeafEntries leaf.entries lo hi acc with
          | Sum.inl ptrs => some ptrs
          | Sum.inr acc2 =>
              if leaf.nextLeaf < 0 then some acc2
              else
                walkLeaves s fuel (visited ++ [leaf.pageId])
                  (readPage s leaf.nextLeaf) lo hi acc2

/-- `BPlusTreeIndex.range_search` (lines 237-258): find the leaf that may
contain `lo` (the source's `begin`), then walk the `next_leaf` chain guarded
by the visited set, collecting pointers of entries with keys in `[lo, hi]`.
Both unguarded source loops get `s.pages.length + 1` fuel, enough for every
terminating execution (the descent visits strictly deeper pages and the walk
adds a fresh page id to `visited` on each iteration). -/
def range_search (s : Store) (lo hi : Nat) : Option (List Int) :=
  match findLeaf s (s.pages.length + 1) s.root_block lo with
  | none => none
  | some leaf =>
      walkLeaves s (s.pages.length + 1) [] (some (Page.leaf leaf)) lo hi []

/-! ### Well-formedness of a stored tree -/

/-- Lower-bound check against an optional separator. -/
def loOk (lo : Option Nat) (k : Nat) : Bool :=
  match lo with
  | none => true
  | some a => a ≤ k

/-- Upper-bound check against an optional separator: strict (`keys(P) < K`,
spec §4.4) or lax (`keys(P) ≤ K`, the shape `insert`'s split produces when
duplicates of the promoted key span the two halves). -/
def hiOk (strict : Bool) (hi : Option Nat) (k : Nat) : Bool :=
  match hi with
  | none => true
  | some b => if strict then k < b else k ≤ b

/-- A separator key must not exceed the enclosing upper separator. -/
def sepOk (hi : Option Nat) (k : Nat) : Bool :=
  match hi with
  | none => true
  | some b => k ≤ b

/-- The children of an internal page paired with their bounds: child 0 gets
`(lo, K₁)`, child j gets `(K_j, K_{j+1})`, the last child `(K_n, hi)`.
`none` when `len(pointers) ≠ len(keys) + 1`. -/
def childBounds : Option Nat → List Nat → List Int → Option Nat →
    Option (List (Int × Option Nat × Option Nat))
  | lo, [], [ptr], hi => some [(ptr, lo, hi)]
  | lo, k :: ks, ptr :: ptrs, hi =>
      (childBounds (some k) ks ptrs hi).map (fun cbs => (ptr, lo, some k) :: cbs)
  | _, _, _, _ => none

/-- Well-formedness of the subtree rooted at `block`, to depth `d`: the page
exists at a non-negative block, leaf entries and internal keys are sorted and
lie between the separators (`strict` picks the upper-bound discipline), and
every child is well-formed between its neighbouring separators. -/
def goodSubtree (s : Store) (strict : Bool) : Nat → Int → Option Nat →
    Option Nat → Bool
  | 0, _, _, _ => false
  | d + 1, block, lo, hi =>
    match readPage s block with
    | none => false
    | some (Page.leaf l) =>
        decide (0 ≤ block) &&
        decide (List.Pairwise (fun a b : LeafEntry => a.1 ≤ b.1) l.entries) &&
        l.entries.all (fun kv => loOk lo kv.1 && hiOk strict hi kv.1)
    | some (Page.internal p) =>
        decide (0 ≤ block) &&
        decide (List.Pairwise (fun a b : Nat => a ≤ b) p.keys) &&
        p.keys.all (fun k => loOk lo k && sepOk hi k) &&
        match childBounds lo p.keys p.pointers hi with
        | none => false
        | some cbs => cbs.all (fun cb => goodSubtree s strict d cb.1 cb.2.1 cb.2.2)

/-- The leaves of the subtree rooted at `block`, left to right. -/
def leavesOf (s : Store) : Nat → Int → List BLeafPage
  | 0, _ => []
  | d + 1, block =>
    match readPage s block with
    | some (Page.leaf l) => [l]
    | some (Page.internal p) => p.pointers.flatMap (leavesOf s d)
    | none => []

/-- All `(key, ptr)` entries stored in the subtree, in leaf order. -/
def entriesOf (s : Store) (d : Nat) (block : Int) : List LeafEntry :=
  (leavesOf s d block).flatMap BLeafPage.entries

/-- The `next_leaf` chain visits exactly these leaves in order and ends with
a negative pointer. -/
def chainLinked : List BLeafPage → Bool
  | [] => true
  | [l] => decide (l.nextLeaf < 0)
  | l :: l2 :: rest => (l.nextLeaf == l2.pageId) && chainLinked (l2 :: rest)

/-- A well-formed stored B+ tree (sorted pages, correct `next_leaf` chain and
separators), to depth `d`: the subtree under the super-header's root is good,
its leaves are linked in order, and the leaf page ids are distinct. -/
def wellFormed (s : Store) (strict : Bool) (d : Nat) : Bool :=
  goodSubtree s strict d s.root_block none none &&
  chainLinked (leavesOf s d s.root_block) &&
  decide (((leavesOf s d s.root_block).map BLeafPage.pageId).Nodup)

/-! ### C5 counterexample: duplicates of `begin` spanning a leaf split -/

/-- Left leaf of the counterexample tree: one entry `(10, 100)`. -/
def c5Leaf1 : BLeafPage := ⟨1, [(10, 100)], 3⟩

/-- Right leaf of the counterexample tree: one entry `(10, 101)`. -/
def c5Leaf3 : BLeafPage := ⟨3, [(10, 101)], -1⟩

/-- Root of the counterexample tree: separator 10 (the promoted first key of
the right leaf, exactly what `_split_leaf_node` promotes when duplicates of
one key overflow a leaf). -/
def c5Root : BInternalPage := ⟨2, [10], [1, 3]⟩

/-- The counterexample store. -/
def c5Store : Store :=
  ⟨[Page.leaf c5Leaf1, Page.internal c5Root, Page.leaf c5Leaf3], 2⟩

/-- C5 counterexample: the store is a well-formed tree in the sense the claim
allows (sorted pages, correct chain, separators — with duplicates of the
separator key spanning the split, as the tree's own insert produces), yet
`range_search(10, 10)` returns only `[101]`: the `bisect_right` descent lands
on the right leaf and the entry `(10, 100)` stored left of the split is
missed, so the result is not the full ordered list `[100, 101]` of offsets
with key in `[10, 10]`. -/
theorem range_search_misses_duplicates :
    wellFormed c5Store false 2 = true ∧
    (10 : Nat) ≤ 10 ∧
    range_search c5Store 10 10 = some [101] ∧
    ((entriesOf c5Store 2 c5Store.root_block).filter
      (fun kv => decide (10 ≤ kv.1) && decide (kv.1 ≤ 10))).map Prod.snd =
      [100, 101] ∧
    some [(101 : Int)] ≠
      some (((entriesOf c5Store 2 c5Store.root_block).filter
        (fun kv => decide (10 ≤ kv.1) && decide (kv.1 ≤ 10))).map Prod.snd) := by
  refine ⟨by decide, by decide, by decide, by decide, by decide⟩

/-! ### Characterization of `bisect_right` on sorted key lists -/

theorem getD_mono_of_sorted_keys (l : List Nat)
    (hs : List.Pairwise (fun a b : Nat => a ≤ b) l)
    {i j : Nat} (hij : i ≤ j) (hj : j < l.length) :
    l.getD i 0 ≤ l.getD j 0 := by
  rcases Nat.eq_or_lt_of_le hij with heq | hlt
  · subst heq; exact le_refl _
  · have hi : i < l.length := lt_trans hlt hj
    rw [List.getD_eq_getElem l _ hi, List.getD_eq_getElem l _ hj]
    exact List.pairwise_iff_getElem.mp hs i j hi hj hlt

theorem bisectRightGo_spec (keys : List Nat) (key : Nat)
    (hs : List.Pairwise (fun a b : Nat => a ≤ b) keys) :
    ∀ (fuel lo hi : Nat), hi - lo ≤ fuel → lo ≤ hi → hi ≤ keys.length →
    (∀ i, i < lo → keys.getD i 0 ≤ key) →
    (∀ i, hi ≤ i → i < keys.length → key < keys.getD i 0) →
    lo ≤ bisectRightGo keys key fuel lo hi ∧
    bisectRightGo keys key fuel lo hi ≤ hi ∧
    (∀ i, i < bisectRightGo keys key fuel lo hi → keys.getD i 0 ≤ key) ∧
    (∀ i, bisectRightGo keys key fuel lo hi ≤ i → i < keys.length →
      key < keys.getD i 0) := by
  intro fuel
  induction fuel with
  | zero =>
      intro lo hi hfuel hlh hhigh hbelow habove
      have heq : lo = hi := by omega
      subst heq
      exact ⟨le_refl _, le_refl _, hbelow, habove⟩
  | succ fuel ih =>
      intro lo hi hfuel hlh hhigh hbelow habove
      simp only [bisectRightGo]
      by_cases h : lo < hi
      · have hm1 : lo ≤ (lo + hi) / 2 :=
          (Nat.le_div_iff_mul_le (by omega)).mpr (by omega)
        have hm2 : (lo + hi) / 2 < hi := Nat.div_lt_of_lt_mul (by omega)
        by_cases hc : key < keys.getD ((lo + hi) / 2) 0
        · simp only [if_pos h, if_pos hc]
          have hrec := ih lo ((lo + hi) / 2) (by omega) (by omega) (by omega)
            hbelow
            (fun i hi2 hilen =>
              lt_of_lt_of_le hc (getD_mono_of_sorted_keys keys hs hi2 hilen))
          exact ⟨hrec.1, by omega, hrec.2.2.1, hrec.2.2.2⟩
        · simp only [if_pos h, if_neg hc]
          have hmidlen : (lo + hi) / 2 < keys.length := by omega
          have hrec := ih ((lo + hi) / 2 + 1) hi (by omega) (by omega) hhigh
            (fun i hi2 => by
              have hle : i ≤ (lo + hi) / 2 := by omega
              exact le_trans
                (getD_mono_of_sorted_keys keys hs hle hmidlen) (by omega))
            habove
          exact ⟨by omega, hrec.2.1, hrec.2.2.1, hrec.2.2.2⟩
      · simp only [if_neg h]
        have heq : lo = hi := by omega
        subst heq
        exact ⟨le_refl _, le_refl _, hbelow, habove⟩

/-- `bisect_right(keys, key)` on a sorted list is the upper bound of `key`. -/
theorem bisectRight_spec (keys : List Nat) (key : Nat)
    (hs : List.Pairwise (fun a b : Nat => a ≤ b) keys) :
    bisectRight keys key ≤ keys.length ∧
    (∀ i, i < bisectRight keys key → keys.getD i 0 ≤ key) ∧
    (∀ i, bisectRight keys key ≤ i → i < keys.length →
      key < keys.getD i 0) := by
  have h := bisectRightGo_spec keys key hs keys.length 0 keys.length
    (by omega) (by omega) (le_refl _)
    (fun i hi => absurd hi (Nat.not_lt_zero i))
    (fun i h1 h2 => absurd (lt_of_le_of_lt h1 h2) (lt_irrefl _))
  exact ⟨h.2.1, h.2.2.1, h.2.2.2⟩

/-! ### Facts about `childBounds` -/

theorem childBounds_some_length :
    ∀ (lo : Option Nat) (ks : List Nat) (ptrs : List Int) (hi : Option Nat)
      (cbs : List (Int × Option Nat × Option Nat)),
    childBounds lo ks ptrs hi = some cbs → ptrs.length = ks.length + 1 := by
  intro lo ks
  induction ks generalizing lo with
  | nil =>
      intro ptrs hi cbs h
      match ptrs with
      | [] => simp [childBounds] at h
      | [ptr] => simp
      | ptr :: q :: rest => simp [childBounds] at h
  | cons k ks ih =>
      intro ptrs hi cbs h
      match ptrs with
      | [] => simp [childBounds] at h
      | ptr :: ptrs2 =>
          rw [childBounds] at h
          rcases Option.map_eq_some'.mp h with ⟨cbs2, h2, _⟩
          have := ih (some k) ptrs2 hi cbs2 h2
          simp [this]

/-- The bound list computed by `childBounds`: pointer `j` is paired with
lower bound `(lo :: ks.map some)[j]` and upper bound `(ks.map some ++ [hi])[j]`. -/
theorem childBounds_eq :
    ∀ (ks : List Nat) (lo : Option Nat) (ptrs : List Int) (hi : Option Nat),
    ptrs.length = ks.length + 1 →
    childBounds lo ks ptrs hi =
      some (ptrs.zip ((lo :: ks.map some).zip (ks.map some ++ [hi]))) := by
  intro ks
  induction ks with
  | nil =>
      intro lo ptrs hi hlen
      match ptrs with
      | [ptr] => simp [childBounds]
  | cons k ks ih =>
      intro lo ptrs hi hlen
      match ptrs with
      | ptr :: ptrs2 =>
          rw [childBounds, ih (some k) ptrs2 hi (by simpa using hlen)]
          simp

/-! ### Keys of a well-formed subtree are sorted and bounded -/

theorem readPage_pid {s : Store} {i : Int} {p : Page}
    (h : readPage s i = some p) : p.pid = i := by
  have h2 := List.find?_some h
  simpa using h2

theorem readPage_mem {s : Store} {i : Int} {p : Page}
    (h : readPage s i = some p) : p ∈ s.pages :=
  List.mem_of_find?_eq_some h

theorem loOk_trans {lo : Option Nat} {k b : Nat} (h1 : loOk lo k = true)
    (h2 : k ≤ b) : loOk lo b = true := by
  cases lo <;> (simp [loOk] at h1 ⊢) <;> omega

theorem loOk_some_le {k b : Nat} (h : loOk (some k) b = true) : k ≤ b := by
  simpa [loOk] using h

theorem hiOk_le {strict : Bool} {k a : Nat}
    (h : hiOk strict (some k) a = true) : a ≤ k := by
  cases strict <;> simp [hiOk] at h <;> omega

theorem hiOk_of_le_sep {strict : Bool} {hi : Option Nat} {k a : Nat}
    (h1 : hiOk strict (some k) a = true) (h2 : sepOk hi k = true) :
    hiOk strict hi a = true := by
  cases hi <;> cases strict <;> simp [hiOk, sepOk] at h1 h2 ⊢ <;> omega

theorem entriesOf_flatMap (s : Store) (d : Nat) (ptrs : List Int) :
    (ptrs.flatMap (leavesOf s d)).flatMap BLeafPage.entries =
      ptrs.flatMap (fun q => entriesOf s d q) := by
  induction ptrs with
  | nil => rfl
  | cons q rest ih =>
      simp only [List.flatMap_cons, List.flatMap_append, ih, entriesOf]

/-- The statement proved about every good subtree at depth `d`: its leaves
are stored under their own non-negative page ids with sorted entries, and the
concatenated entry list is sorted and lies between the subtree's bounds. -/
def GoodStmt (s : Store) (strict : Bool) (d : Nat) : Prop :=
  ∀ (block : Int) (lo hi : Option Nat),
    goodSubtree s strict d block lo hi = true →
    (∀ l ∈ leavesOf s d block,
      readPage s l.pageId = some (Page.leaf l) ∧ 0 ≤ l.pageId ∧
      List.Pairwise (fun a b : LeafEntry => a.1 ≤ b.1) l.entries) ∧
    List.Pairwise (fun a b : LeafEntry => a.1 ≤ b.1) (entriesOf s d block) ∧
    (∀ kv ∈ entriesOf s d block,
      loOk lo kv.1 = true ∧ hiOk strict hi kv.1 = true)

theorem goodChildren_spec (s : Store) (strict : Bool) (d : Nat)
    (IH : GoodStmt s strict d) :
    ∀ (ks : List Nat) (lo : Option Nat) (ptrs : List Int) (hi : Option Nat)
      (cbs : List (Int × Option Nat × Option Nat)),
    childBounds lo ks ptrs hi = some cbs →
    cbs.all (fun cb => goodSubtree s strict d cb.1 cb.2.1 cb.2.2) = true →
    List.Pairwise (fun a b : Nat => a ≤ b) ks →
    (∀ k ∈ ks, loOk lo k = true ∧ sepOk hi k = true) →
    (∀ l ∈ ptrs.flatMap (leavesOf s d),
      readPage s l.pageId = some (Page.leaf l) ∧ 0 ≤ l.pageId ∧
      List.Pairwise (fun a b : LeafEntry => a.1 ≤ b.1) l.entries) ∧
    List.Pairwise (fun a b : LeafEntry => a.1 ≤ b.1)
      (ptrs.flatMap (fun q => entriesOf s d q)) ∧
    (∀ kv ∈ ptrs.flatMap (fun q => entriesOf s d q),
      loOk lo kv.1 = true ∧ hiOk strict hi kv.1 = true) := by
  intro ks
  induction ks with
  | nil =>
      intro lo ptrs hi cbs hcb hall hks hkb
      match ptrs with
      | [ptr] =>
          simp only [childBounds, Option.some_inj] at hcb
          subst hcb
          simp only [List.all_cons, List.all_nil, Bool.and_true] at hall
          have h := IH ptr lo hi hall
          simpa using h
  | cons k ks ih =>
      intro lo ptrs hi cbs hcb hall hks hkb
      match ptrs with
      | [] => simp [childBounds] at hcb
      | ptr :: ptrs2 =>
          rw [childBounds] at hcb
          rcases Option.map_eq_some'.mp hcb with ⟨cbs2, hcb2, hcons⟩
          subst hcons
          simp only [List.all_cons, Bool.and_eq_true] at hall
          obtain ⟨hgood, hall2⟩ := hall
          have hhead := IH ptr lo (some k) hgood
          have hkk : loOk lo k = true ∧ sepOk hi k = true :=
            hkb k (List.mem_cons_self k ks)
          have htail := ih (some k) ptrs2 hi cbs2 hcb2 hall2
            (List.pairwise_cons.mp hks).2
            (fun k2 hk2 => ⟨by
              simpa [loOk] using (List.pairwise_cons.mp hks).1 k2 hk2,
              (hkb k2 (List.mem_cons_of_mem k hk2)).2⟩)
          refine ⟨?_, ?_, ?_⟩
          · intro l hl
            rw [List.flatMap_cons, List.mem_append] at hl
            rcases hl with hl | hl
            · exact hhead.1 l hl
            · exact htail.1 l hl
          · rw [List.flatMap_cons, List.pairwise_append]
            refine ⟨hhead.2.1, htail.2.1, ?_⟩
            intro a ha b hb
            have ha2 := (hhead.2.2 a ha).2
            have hb2 := (htail.2.2 b hb).1
            exact le_trans (hiOk_le ha2) (loOk_some_le hb2)
          · intro kv hkv
            rw [List.flatMap_cons, List.mem_append] at hkv
            rcases hkv with hkv | hkv
            · have h2 := hhead.2.2 kv hkv
              exact ⟨h2.1, hiOk_of_le_sep h2.2 hkk.2⟩
            · have h2 := htail.2.2 kv hkv
              exact ⟨loOk_trans hkk.1 (loOk_some_le h2.1), h2.2⟩

theorem goodSubtree_spec (s : Store) (strict : Bool) :
    ∀ d, GoodStmt s strict d := by
  intro d
  induction d with
  | zero => intro block lo hi h; simp [goodSubtree] at h
  | succ d ih =>
      intro block lo hi h
      rw [goodSubtree] at h
      cases hread : readPage s block with
      | none => rw [hread] at h; exact absurd h (by simp)
      | some pg =>
        cases pg with
        | leaf l =>
            rw [hread] at h
            simp only [Bool.and_eq_true, decide_eq_true_eq,
              List.all_eq_true] at h
            obtain ⟨⟨hpos, hsorted⟩, hbounds⟩ := h
            have hpid : l.pageId = block := readPage_pid hread
            have hleaves : leavesOf s (d + 1) block = [l] := by
              simp [leavesOf, hread]
            have hentries : entriesOf s (d + 1) block = l.entries := by
              simp [entriesOf, hleaves]
            refine ⟨?_, ?_, ?_⟩
            · intro l2 hl2
              rw [hleaves] at hl2
              rcases List.mem_singleton.mp hl2 with rfl
              exact ⟨by rw [hpid]; exact hread, by rw [hpid]; exact hpos,
                hsorted⟩
            · rw [hentries]; exact hsorted
            · intro kv hkv
              rw [hentries] at hkv
              exact hbounds kv hkv
        | internal p =>
            rw [hread] at h
            simp only [Bool.and_eq_true, decide_eq_true_eq,
              List.all_eq_true] at h
            obtain ⟨⟨⟨hpos, hks⟩, hkb⟩, hmatch⟩ := h
            cases hcb : childBounds lo p.keys p.pointers hi with
            | none => rw [hcb] at hmatch; simp at hmatch
            | some cbs =>
                rw [hcb] at hmatch
                simp only [List.all_eq_true] at hmatch
                have hch := goodChildren_spec s strict d ih p.keys lo
                  p.pointers hi cbs hcb (List.all_eq_true.mpr hmatch) hks hkb
                have hleaves : leavesOf s (d + 1) block =
                    p.pointers.flatMap (leavesOf s d) := by
                  simp [leavesOf, hread]
                have hentries : entriesOf s (d + 1) block =
                    p.pointers.flatMap (fun q => entriesOf s d q) := by
                  rw [entriesOf, hleaves, entriesOf_flatMap]
                refine ⟨?_, ?_, ?_⟩
                · intro l hl; rw [hleaves] at hl; exact hch.1 l hl
                · rw [hentries]; exact hch.2.1
                · intro kv hkv; rw [hentries] at hkv; exact hch.2.2 kv hkv

/-! ### The descent of `_find_leaf_page` on a strict tree -/

theorem hiOk_true_lt {b a : Nat} (h : hiOk true (some b) a = true) : a < b := by
  simpa [hiOk] using h

/-- Each child pointer of a good internal page roots a good subtree, and for
all but the last child the upper bound is the separator key at its index. -/
theorem childBounds_good (s : Store) (strict : Bool) (d : Nat)
    {lo hi : Option Nat} {ks : List Nat} {ptrs : List Int}
    {cbs : List (Int × Option Nat × Option Nat)}
    (hcb : childBounds lo ks ptrs hi = some cbs)
    (hall : ∀ cb ∈ cbs, goodSubtree s strict d cb.1 cb.2.1 cb.2.2 = true) :
    ∀ j, j < ptrs.length →
      ∃ loj hij, goodSubtree s strict d (ptrs.getD j 0) loj hij = true ∧
        (j < ks.length → hij = some (ks.getD j 0)) := by
  induction ks generalizing lo ptrs cbs with
  | nil =>
      intro j hj
      match ptrs, hj with
      | [ptr], hj =>
          simp only [childBounds, Option.some_inj] at hcb
          subst hcb
          have hj0 : j = 0 := by simpa using hj
          subst hj0
          exact ⟨lo, hi, hall _ (List.mem_singleton_self _), by simp⟩
  | cons k ks ih =>
      intro j hj
      match ptrs with
      | [] => simp [childBounds] at hcb
      | ptr :: ptrs2 =>
          rw [childBounds] at hcb
          rcases Option.map_eq_some'.mp hcb with ⟨cbs2, hcb2, hcons⟩
          subst hcons
          cases j with
          | zero =>
              refine ⟨lo, some k, hall _ (List.mem_cons_self _ _), ?_⟩
              intro _
              rfl
          | succ j2 =>
              have hj2 : j2 < ptrs2.length := by simpa using hj
              obtain ⟨loj, hij, hgood, hhij⟩ := ih hcb2
                (fun cb hcbmem => hall cb (List.mem_cons_of_mem _ hcbmem))
                j2 hj2
              refine ⟨loj, hij, ?_, ?_⟩
              · simpa using hgood
              · intro hlt
                have : j2 < ks.length := by simpa using hlt
                simpa using hhij this

/-- Descent lemma (C5, strict separators): `_find_leaf_page` lands on a leaf
such that every entry stored in the leaves left of it has key `< key`. -/
theorem findLeaf_spec (s : Store) (key : Nat) :
    ∀ (d fuel : Nat) (block : Int) (lo hi : Option Nat),
    goodSubtree s true d block lo hi = true → d ≤ fuel →
    ∃ (L : BLeafPage) (pre post : List BLeafPage),
      findLeaf s fuel block key = some L ∧
      leavesOf s d block = pre ++ L :: post ∧
      (∀ kv ∈ pre.flatMap BLeafPage.entries, kv.1 < key) := by
  intro d
  induction d with
  | zero => intro fuel block lo hi h _; simp [goodSubtree] at h
  | succ d ih =>
      intro fuel block lo hi h hfuel
      match fuel, hfuel with
      | fuel + 1, hfuel =>
      rw [goodSubtree] at h
      cases hread : readPage s block with
      | none => rw [hread] at h; exact absurd h (by simp)
      | some pg =>
        cases pg with
        | leaf l =>
            refine ⟨l, [], [], ?_, ?_, ?_⟩
            · simp [findLeaf, hread]
            · simp [leavesOf, hread]
            · intro kv hkv; simp at hkv
        | internal p =>
            rw [hread] at h
            simp only [Bool.and_eq_true, decide_eq_true_eq,
              List.all_eq_true] at h
            obtain ⟨⟨⟨hpos, hks⟩, hkb⟩, hmatch⟩ := h
            cases hcb : childBounds lo p.keys p.pointers hi with
            | none => rw [hcb] at hmatch; simp at hmatch
            | some cbs =>
              rw [hcb] at hmatch
              simp only [List.all_eq_true] at hmatch
              have hlen : p.pointers.length = p.keys.length + 1 :=
                childBounds_some_length lo p.keys p.pointers hi cbs hcb
              have hbs := bisectRight_spec p.keys key hks
              have hidxlen : bisectRight p.keys key < p.pointers.length := by
                omega
              obtain ⟨loj, hij, hgoodc, hhij⟩ :=
                childBounds_good s true d hcb hmatch (bisectRight p.keys key)
                  hidxlen
              have hptr : p.pointers[bisectRight p.keys key]? =
                  some (p.pointers.getD (bisectRight p.keys key) 0) := by
                rw [List.getD_eq_getElem _ _ hidxlen,
                  List.getElem?_eq_getElem hidxlen]
              have hfind : findLeaf s (fuel + 1) block key =
                  findLeaf s fuel
                    (p.pointers.getD (bisectRight p.keys key) 0) key := by
                simp only [findLeaf, hread, hptr]
              obtain ⟨L, preC, postC, hfindC, hleavesC, hpreC⟩ :=
                ih fuel (p.pointers.getD (bisectRight p.keys key) 0)
                  loj hij hgoodc (by omega)
              have hsplit3 : p.pointers = p.pointers.take (bisectRight p.keys key)
                  ++ p.pointers.getD (bisectRight p.keys key) 0
                    :: p.pointers.drop (bisectRight p.keys key + 1) := by
                rw [List.getD_eq_getElem _ _ hidxlen]
                conv_lhs => rw [← List.take_append_drop (bisectRight p.keys key)
                  p.pointers]
                rw [List.getElem_cons_drop]
              have hleaves : leavesOf s (d + 1) block =
                  p.pointers.flatMap (leavesOf s d) := by
                simp [leavesOf, hread]
              refine ⟨L, (p.pointers.take (bisectRight p.keys key)).flatMap
                  (leavesOf s d) ++ preC,
                postC ++ (p.pointers.drop (bisectRight p.keys key + 1)).flatMap
                  (leavesOf s d), ?_, ?_, ?_⟩
              · rw [hfind]; exact hfindC
              · rw [hleaves]
                conv_lhs => rw [hsplit3]
                rw [List.flatMap_append, List.flatMap_cons, hleavesC]
                simp [List.append_assoc]
              · intro kv hkv
                rw [List.flatMap_append, List.mem_append] at hkv
                rcases hkv with hkv | hkv
                · rw [entriesOf_flatMap, List.mem_flatMap] at hkv
                  obtain ⟨q, hq, hkvq⟩ := hkv
                  obtain ⟨j, hjlen, hqj⟩ := List.mem_iff_getElem.mp hq
                  have hjtake : j < bisectRight p.keys key := by
                    have := hjlen
                    simp only [List.length_take] at this
                    omega
                  have hjptr : j < p.pointers.length := by
                    have := hjlen
                    simp only [List.length_take] at this
                    omega
                  have hqeq : q = p.pointers.getD j 0 := by
                    rw [← hqj, List.getElem_take _,
                      List.getD_eq_getElem _ _ hjptr]
                  obtain ⟨loj2, hij2, hgood2, hhij2⟩ :=
                    childBounds_good s true d hcb hmatch j hjptr
                  have hjks : j < p.keys.length := by omega
                  have hij2eq := hhij2 hjks
                  subst hij2eq
                  have hbound := (goodSubtree_spec s true d _ _ _ hgood2).2.2
                    kv (by rw [← hqeq]; exact hkvq)
                  have hlt : kv.1 < p.keys.getD j 0 := hiOk_true_lt hbound.2
                  have hle : p.keys.getD j 0 ≤ key := hbs.2.1 j hjtake
                  omega
                · exact hpreC kv hkv

/-! ### The leaf-chain walk of `range_search` -/

/-- The filter the range scan is meant to compute. -/
def inRange (lo hi : Nat) (kv : LeafEntry) : Bool :=
  decide (lo ≤ kv.1) && decide (kv.1 ≤ hi)

theorem scanLeafEntries_spec (lo hi : Nat) (hlohi : lo ≤ hi) :
    ∀ (entries : List LeafEntry) (acc : List Int),
    List.Pairwise (fun a b : LeafEntry => a.1 ≤ b.1) entries →
    scanLeafEntries entries lo hi acc =
      (if entries.any (fun kv => decide (hi < kv.1)) then
        Sum.inl (acc ++ (entries.filter (inRange lo hi)).map Prod.snd)
      else
        Sum.inr (acc ++ (entries.filter (inRange lo hi)).map Prod.snd)) := by
  intro entries
  induction entries with
  | nil => intro acc _; simp [scanLeafEntries]
  | cons e rest ih =>
      intro acc hs
      obtain ⟨k, ptr⟩ := e
      have hhead := (List.pairwise_cons.mp hs).1
      have hrest := (List.pairwise_cons.mp hs).2
      by_cases h1 : k < lo
      · have hk2 : ¬ lo ≤ k := by omega
        have hk3 : ¬ hi < k := by omega
        simp only [scanLeafEntries, if_pos h1, List.filter_cons, List.any_cons,
          inRange, hk2, hk3, decide_False, Bool.false_and, Bool.false_or,
          if_neg (Bool.false_ne_true)]
        exact ih acc hrest
      · by_cases h2 : hi < k
        · have hfilter : ((k, ptr) :: rest).filter (inRange lo hi) = [] := by
            rw [List.filter_cons]
            have hpred : inRange lo hi (k, ptr) = false := by
              simp [inRange]; omega
            rw [hpred]
            simp only [Bool.false_eq_true, if_neg, if_false]
            rw [List.filter_eq_nil_iff]
            intro kv hkv
            have hle : k ≤ kv.1 := hhead kv hkv
            simp [inRange]
            intro _
            omega
          have hany : ((k, ptr) :: rest).any (fun kv => decide (hi < kv.1)) = true := by
            simp [List.any_cons]
            left; omega
          simp only [scanLeafEntries, if_neg h1, if_pos h2, hany, if_pos rfl,
            hfilter, List.map_nil, List.append_nil]
          simp
        · have hpred : inRange lo hi (k, ptr) = true := by
            simp [inRange]; omega
          have hk3 : ¬ hi < k := h2
          simp only [scanLeafEntries, if_neg h1, if_neg h2,
            List.filter_cons, List.any_cons, hpred, if_pos rfl,
            decide_eq_true_eq, hk3, decide_False, Bool.false_or]
          rw [ih (acc ++ [ptr]) hrest]
          simp [List.append_assoc]

/-- Helper: reading the walk result when the scan falls through. -/
theorem walkLeaves_step_inr (s : Store) (fuel : Nat) (visited : List Int)
    (L : BLeafPage) (lo hi : Nat) (acc acc2 : List Int)
    (hnv : L.pageId ∉ visited)
    (hscan : scanLeafEntries L.entries lo hi acc = Sum.inr acc2) :
    walkLeaves s (fuel + 1) visited (some (Page.leaf L)) lo hi acc =
      (if L.nextLeaf < 0 then some acc2
       else walkLeaves s fuel (visited ++ [L.pageId])
         (readPage s L.nextLeaf) lo hi acc2) := by
  simp only [walkLeaves, Page.pid, if_neg hnv, hscan]

/-- Helper: reading the walk result when the scan returns early. -/
theorem walkLeaves_step_inl (s : Store) (fuel : Nat) (visited : List Int)
    (L : BLeafPage) (lo hi : Nat) (acc ptrs : List Int)
    (hnv : L.pageId ∉ visited)
    (hscan : scanLeafEntries L.entries lo hi acc = Sum.inl ptrs) :
    walkLeaves s (fuel + 1) visited (some (Page.leaf L)) lo hi acc =
      some ptrs := by
  simp only [walkLeaves, Page.pid, if_neg hnv, hscan]

theorem chainLinked_cons {a : BLeafPage} {xs : List BLeafPage}
    (h : chainLinked (a :: xs) = true) : chainLinked xs = true := by
  cases xs with
  | nil => rfl
  | cons b ys =>
      simp only [chainLinked, Bool.and_eq_true] at h
      exact h.2

theorem chainLinked_suffix :
    ∀ (pre rest : List BLeafPage), chainLinked (pre ++ rest) = true →
    chainLinked rest = true := by
  intro pre
  induction pre with
  | nil => intro rest h; exact h
  | cons a pre ih => intro rest h; exact ih rest (chainLinked_cons h)

theorem chainLinked_head_next {a b : BLeafPage} {ys : List BLeafPage}
    (h : chainLinked (a :: b :: ys) = true) : a.nextLeaf = b.pageId := by
  simp only [chainLinked, Bool.and_eq_true, beq_iff_eq] at h
  exact h.1

theorem chainLinked_single {a : BLeafPage} (h : chainLinked [a] = true) :
    a.nextLeaf < 0 := by
  simpa [chainLinked] using h

/-- Walking the chain from a leaf collects exactly the in-range pointers of
that leaf and everything after it, in order. -/
theorem walkLeaves_spec (s : Store) (lo hi : Nat) (hlohi : lo ≤ hi) :
    ∀ (rest : List BLeafPage) (L : BLeafPage) (fuel : Nat)
      (visited acc : List Int),
    (∀ l ∈ L :: rest, readPage s l.pageId = some (Page.leaf l) ∧
      0 ≤ l.pageId ∧
      List.Pairwise (fun a b : LeafEntry => a.1 ≤ b.1) l.entries) →
    List.Pairwise (fun a b : LeafEntry => a.1 ≤ b.1)
      ((L :: rest).flatMap BLeafPage.entries) →
    chainLinked (L :: rest) = true →
    ((L :: rest).map BLeafPage.pageId).Nodup →
    (∀ l ∈ L :: rest, l.pageId ∉ visited) →
    (L :: rest).length ≤ fuel →
    walkLeaves s fuel visited (some (Page.leaf L)) lo hi acc =
      some (acc ++ (((L :: rest).flatMap BLeafPage.entries).filter
        (inRange lo hi)).map Prod.snd) := by
  intro rest
  induction rest with
  | nil =>
      intro L fuel visited acc hstored hcross hchain hnodup hdisj hfuel
      match fuel, hfuel with
      | fuel + 1, _ =>
      have hsL := (hstored L (List.mem_cons_self _ _)).2.2
      have hnv : L.pageId ∉ visited := hdisj L (List.mem_cons_self _ _)
      have hscan := scanLeafEntries_spec lo hi hlohi L.entries acc hsL
      by_cases hany : L.entries.any (fun kv => decide (hi < kv.1)) = true
      · rw [if_pos hany] at hscan
        rw [walkLeaves_step_inl s fuel visited L lo hi acc _ hnv hscan]
        simp [List.flatMap_cons]
      · rw [if_neg hany] at hscan
        have hneg : L.nextLeaf < 0 := chainLinked_single hchain
        rw [walkLeaves_step_inr s fuel visited L lo hi acc _ hnv hscan,
          if_pos hneg]
        simp [List.flatMap_cons]
  | cons l2 rest2 ih =>
      intro L fuel visited acc hstored hcross hchain hnodup hdisj hfuel
      match fuel, hfuel with
      | fuel + 1, hfuel =>
      have hsL := (hstored L (List.mem_cons_self _ _)).2.2
      have hnv : L.pageId ∉ visited := hdisj L (List.mem_cons_self _ _)
      have hscan := scanLeafEntries_spec lo hi hlohi L.entries acc hsL
      have hsplitE : (L :: l2 :: rest2).flatMap BLeafPage.entries =
          L.entries ++ (l2 :: rest2).flatMap BLeafPage.entries :=
        List.flatMap_cons _ _ _
      have hcross2 := hsplitE ▸ hcross
      have hpairs := List.pairwise_append.mp hcross2
      by_cases hany : L.entries.any (fun kv => decide (hi < kv.1)) = true
      · rw [if_pos hany] at hscan
        rw [walkLeaves_step_inl s fuel visited L lo hi acc _ hnv hscan]
        obtain ⟨kv0, hkv0mem, hkv0⟩ := List.any_eq_true.mp hany
        have htail : ((l2 :: rest2).flatMap BLeafPage.entries).filter
            (inRange lo hi) = [] := by
          rw [List.filter_eq_nil_iff]
          intro kv hkv
          have hle : kv0.1 ≤ kv.1 := hpairs.2.2 kv0 hkv0mem kv hkv
          have hgt : hi < kv0.1 := of_decide_eq_true hkv0
          simp [inRange]
          intro _
          omega
        rw [hsplitE, List.filter_append, htail, List.append_nil]
      · rw [if_neg hany] at hscan
        have hnext : L.nextLeaf = l2.pageId := chainLinked_head_next hchain
        have hpos2 : 0 ≤ l2.pageId :=
          (hstored l2 (List.mem_cons_of_mem _ (List.mem_cons_self _ _))).2.1
        have hnneg : ¬ L.nextLeaf < 0 := by omega
        have hread2 : readPage s L.nextLeaf = some (Page.leaf l2) := by
          rw [hnext]
          exact (hstored l2 (List.mem_cons_of_mem _ (List.mem_cons_self _ _))).1
        have hLnotmem : L.pageId ∉ (l2 :: rest2).map BLeafPage.pageId :=
          (List.nodup_cons.mp hnodup).1
        have hdisj2 : ∀ l ∈ l2 :: rest2,
            l.pageId ∉ visited ++ [L.pageId] := by
          intro l hl hv
          rcases List.mem_append.mp hv with hv | hv
          · exact hdisj l (List.mem_cons_of_mem _ hl) hv
          · have hpid : l.pageId = L.pageId := List.mem_singleton.mp hv
            exact hLnotmem (hpid ▸ List.mem_map_of_mem BLeafPage.pageId hl)
        rw [walkLeaves_step_inr s fuel visited L lo hi acc _ hnv hscan,
          if_neg hnneg, hread2,
          ih l2 fuel (visited ++ [L.pageId])
            (acc ++ (L.entries.filter (inRange lo hi)).map Prod.snd)
            (fun l hl => hstored l (List.mem_cons_of_mem _ hl))
            hpairs.2.1
            (chainLinked_cons hchain)
            (List.nodup_cons.mp hnodup).2
            hdisj2
            (by simpa using hfuel),
          hsplitE, List.filter_append, List.map_append, List.append_assoc]

/-! ### C5, amended -/

theorem leaves_length_le (s : Store) (ls : List BLeafPage)
    (hnodup : (ls.map BLeafPage.pageId).Nodup)
    (hstored : ∀ l ∈ ls, readPage s l.pageId = some (Page.leaf l)) :
    ls.length ≤ s.pages.length := by
  have hnd : ls.Nodup := hnodup.of_map
  have hinj : Function.Injective Page.leaf := fun a b h => by cases h; rfl
  have hnd2 : (ls.map Page.leaf).Nodup := hnd.map hinj
  have hsub : ls.map Page.leaf ⊆ s.pages := by
    intro pg hpg
    rw [List.mem_map] at hpg
    obtain ⟨l, hl, rfl⟩ := hpg
    exact readPage_mem (hstored l hl)
  have hle := (hnd2.subperm hsub).length_le
  simpa using hle

/-- C5 (amended): on a well-formed stored tree whose separators strictly
bound their left subtrees (`keys(P_i) < K_i`, the spec's §4.4 invariant),
`range_search(begin, end)` with `begin ≤ end` returns exactly the offsets of
the stored entries whose keys lie in `[begin, end]`, in ascending key order:
the stored entry list is sorted and the result is the pointer projection of
its in-range sublist, in order.  (When duplicates of `begin` span a leaf
split — the lax, `keys(P_i) ≤ K_i` shape — entries equal to `begin` stored
left of the split are missed; see the counterexample.) -/
theorem range_search_strict_exact (s : Store) (d : Nat) (lo hi : Nat)
    (hwf : wellFormed s true d = true) (hlohi : lo ≤ hi)
    (hd : d ≤ s.pages.length + 1) :
    List.Pairwise (fun a b : LeafEntry => a.1 ≤ b.1)
      (entriesOf s d s.root_block) ∧
    range_search s lo hi =
      some (((entriesOf s d s.root_block).filter (inRange lo hi)).map
        Prod.snd) := by
  simp only [wellFormed, Bool.and_eq_true, decide_eq_true_eq] at hwf
  obtain ⟨⟨hgood, hchain⟩, hnodup⟩ := hwf
  have hspec := goodSubtree_spec s true d s.root_block none none hgood
  obtain ⟨L, pre, post, hfind, hleaves, hpre⟩ :=
    findLeaf_spec s lo d (s.pages.length + 1) s.root_block none none hgood
      (by omega)
  refine ⟨hspec.2.1, ?_⟩
  rw [range_search, hfind]
  have hstored_all := hspec.1
  rw [hleaves] at hstored_all hchain hnodup
  have hlen_le : (pre ++ L :: post).length ≤ s.pages.length :=
    leaves_length_le s (pre ++ L :: post) hnodup
      (fun l hl => (hstored_all l hl).1)
  have hentries_split : entriesOf s d s.root_block =
      pre.flatMap BLeafPage.entries ++
        (L :: post).flatMap BLeafPage.entries := by
    rw [entriesOf, hleaves, List.flatMap_append]
  have hcross_full := hspec.2.1
  rw [hentries_split] at hcross_full
  have hcross_suffix := (List.pairwise_append.mp hcross_full).2.1
  have hnodup_suffix : ((L :: post).map BLeafPage.pageId).Nodup := by
    rw [List.map_append] at hnodup
    exact hnodup.of_append_right
  have hwalk := walkLeaves_spec s lo hi hlohi post L (s.pages.length + 1)
    [] []
    (fun l hl => hstored_all l (List.mem_append.mpr (Or.inr hl)))
    hcross_suffix
    (chainLinked_suffix pre (L :: post) hchain)
    hnodup_suffix
    (fun l _ => List.not_mem_nil _)
    (by
      have hlen2 : pre.length + (L :: post).length =
          (pre ++ L :: post).length := (List.length_append _ _).symm
      omega)
  show walkLeaves s (s.pages.length + 1) [] (some (Page.leaf L)) lo hi [] =
    some (((entriesOf s d s.root_block).filter (inRange lo hi)).map Prod.snd)
  rw [hwalk]
  have hprefilter : (pre.flatMap BLeafPage.entries).filter (inRange lo hi)
      = [] := by
    rw [List.filter_eq_nil_iff]
    intro kv hkv
    have hlt := hpre kv hkv
    simp only [inRange, Bool.and_eq_true, decide_eq_true_eq, not_and]
    intro h2
    omega
  rw [hentries_split, List.filter_append, hprefilter, List.nil_append,
    List.nil_append]

/-- Left leaf of the strict witness tree. -/
def c5wLeaf1 : BLeafPage := ⟨1, [(1, 10), (2, 20)], 3⟩

/-- Right leaf of the strict witness tree. -/
def c5wLeaf3 : BLeafPage := ⟨3, [(3, 30)], -1⟩

/-- Root of the strict witness tree (separator 3 strictly above the left
leaf's keys). -/
def c5wRoot : BInternalPage := ⟨2, [3], [1, 3]⟩

/-- The strict witness store. -/
def c5wStore : Store :=
  ⟨[Page.leaf c5wLeaf1, Page.internal c5wRoot, Page.leaf c5wLeaf3], 2⟩

/-- Witness for the amended C5 theorem: on the strict two-leaf tree,
`range_search(2, 3)` returns exactly the in-range offsets in order. -/
theorem range_search_strict_exact_witness :
    List.Pairwise (fun a b : LeafEntry => a.1 ≤ b.1)
      (entriesOf c5wStore 2 c5wStore.root_block) ∧
    range_search c5wStore 2 3 =
      some (((entriesOf c5wStore 2 c5wStore.root_block).filter
        (inRange 2 3)).map Prod.snd) :=
  range_search_strict_exact c5wStore 2 2 3 (by decide) (by decide) (by decide)

/-! ## Lookups are read-only (C10)

`BPlusTreeIndex.search` and `range_search` open a `BlockCursor` on the index
file and issue only `read_block` calls; they never construct a `LineCursor`
on the data file.  To state the frame property, the same source functions are
written with the pair of files threaded through every cursor call, so that
each call site documents its effect on the files. -/

/-- The table's data file, as its list of fixed-size records. -/
abbrev DataFile := List (List Nat)

/-- The files a `BPlusTreeIndex` can touch: the index file and the data file. -/
abbrev TreeFiles := Store × DataFile

/-- `BlockCursor.read_block(i)` followed by `_parse_page`, as a state
transformer: reading returns the page and passes the files through. -/
def read_blockS (st : TreeFiles) (i : Int) : Option Page × TreeFiles :=
  (readPage st.1 i, st)

/-- `BlockCursor.update_block(i, page)`: overwrite the page stored at block
`i`.  Used by the insert/remove/split paths of the tree, never by the
lookups. -/
def update_blockS (st : TreeFiles) (i : Int) (pg : Page) : TreeFiles :=
  (⟨st.1.pages.map (fun q => if q.pid == i then pg else q), st.1.root_block⟩,
    st.2)

/-- `BPlusTreeIndex.search` (bplus_tree.py lines 213-235) with the file state
threaded through every cursor call: descend with `bisect_right`; at the leaf,
scan linearly and return the first entry with an equal key. -/
def searchS (st : TreeFiles) : Nat → Int → Nat → Option Int × TreeFiles
  | 0, _, _ => (none, st)
  | fuel + 1, block, key =>
    match read_blockS st block with
    | (none, st1) => (none, st1)
    | (some (Page.leaf l), st1) =>
        ((l.entries.find? (fun kv => kv.1 == key)).map Prod.snd, st1)
    | (some (Page.internal p), st1) =>
        match p.pointers[bisectRight p.keys key]? with
        | some child => searchS st1 fuel child key
        | none => (none, st1)

/-- `BPlusTreeIndex._find_leaf_page` with the file state threaded through. -/
def findLeafS (st : TreeFiles) : Nat → Int → Nat → Option BLeafPage × TreeFiles
  | 0, _, _ => (none, st)
  | fuel + 1, block, key =>
    match read_blockS st block with
    | (some (Page.leaf l), st1) => (some l, st1)
    | (some (Page.internal p), st1) =>
        match p.pointers[bisectRight p.keys key]? with
        | some child => findLeafS st1 fuel child key
        | none => (none, st1)
    | (none, st1) => (none, st1)

/-- The leaf-chain loop of `range_search` with the file state threaded
through its `read_block` call. -/
def walkLeavesS (st : TreeFiles) : Nat → List Int → Option Page → Nat → Nat →
    List Int → Option (List Int) × TreeFiles
  | 0, _, _, _, _, _ => (none, st)
  | _ + 1, _, none, _, _, acc => (some acc, st)
  | fuel + 1, visited, some page, lo, hi, acc =>
      if page.pid ∈ visited then (some acc, st)
      else
        match page with
        | Page.internal _ => (none, st)
        | Page.leaf leaf =>
          match scanLeafEntries leaf.entries lo hi acc with
          | Sum.inl ptrs => (some ptrs, st)
          | Sum.inr acc2 =>
              if leaf.nextLeaf < 0 then (some acc2, st)
              else
                match read_blockS st leaf.nextLeaf with
                | (pg, st1) =>
                    walkLeavesS st1 fuel (visited ++ [leaf.pageId]) pg lo
                      hi acc2

/-- `BPlusTreeIndex.range_search` with the file state threaded through. -/
def range_searchS (st : TreeFiles) (lo hi : Nat) :
    Option (List Int) × TreeFiles :=
  match findLeafS st (st.1.pages.length + 1) st.1.root_block lo with
  | (none, st1) => (none, st1)
  | (some leaf, st1) =>
      walkLeavesS st1 (st.1.pages.length + 1) [] (some (Page.leaf leaf))
        lo hi []

theorem searchS_preserves_files :
    ∀ (fuel : Nat) (st : TreeFiles) (block : Int) (key : Nat),
    (searchS st fuel block key).2 = st := by
  intro fuel
  induction fuel with
  | zero => intro st block key; rfl
  | succ fuel ih =>
      intro st block key
      simp only [searchS, read_blockS]
      cases hrp : readPage st.1 block with
      | none => rfl
      | some pg =>
          cases pg with
          | leaf l => rfl
          | internal p =>
              show (match p.pointers[bisectRight p.keys key]? with
                | some child => searchS st fuel child key
                | none => ((none : Option Int), st)).2 = st
              cases hp : p.pointers[bisectRight p.keys key]? with
              | none => rfl
              | some child => exact ih st child key

theorem findLeafS_preserves_files :
    ∀ (fuel : Nat) (st : TreeFiles) (block : Int) (key : Nat),
    (findLeafS st fuel block key).2 = st := by
  intro fuel
  induction fuel with
  | zero => intro st block key; rfl
  | succ fuel ih =>
      intro st block key
      simp only [findLeafS, read_blockS]
      cases hrp : readPage st.1 block with
      | none => rfl
      | some pg =>
          cases pg with
          | leaf l => rfl
          | internal p =>
              show (match p.pointers[bisectRight p.keys key]? with
                | some child => findLeafS st fuel child key
                | none => ((none : Option BLeafPage), st)).2 = st
              cases hp : p.pointers[bisectRight p.keys key]? with
              | none => rfl
              | some child => exact ih st child key

theorem walkLeavesS_preserves_files :
    ∀ (fuel : Nat) (st : TreeFiles) (visited : List Int) (pg : Option Page)
      (lo hi : Nat) (acc : List Int),
    (walkLeavesS st fuel visited pg lo hi acc).2 = st := by
  intro fuel
  induction fuel with
  | zero => intro st visited pg lo hi acc; rfl
  | succ fuel ih =>
      intro st visited pg lo hi acc
      cases pg with
      | none => rfl
      | some page =>
          cases page with
          | internal p =>
              simp only [walkLeavesS, read_blockS]
              by_cases hv : (Page.internal p).pid ∈ visited
              · rw [if_pos hv]
              · rw [if_neg hv]
          | leaf leaf =>
              simp only [walkLeavesS, read_blockS]
              by_cases hv : (Page.leaf leaf).pid ∈ visited
              · rw [if_pos hv]
              · rw [if_neg hv]
                show (match scanLeafEntries leaf.entries lo hi acc with
                  | Sum.inl ptrs => ((some ptrs : Option (List Int)), st)
                  | Sum.inr acc2 =>
                      if leaf.nextLeaf < 0 then ((some acc2 : Option (List Int)), st)
                      else walkLeavesS st fuel (visited ++ [leaf.pageId])
                        (readPage st.1 leaf.nextLeaf) lo hi acc2).2 = st
                cases hscan : scanLeafEntries leaf.entries lo hi acc with
                | inl ptrs => rfl
                | inr acc2 =>
                    show (if leaf.nextLeaf < 0
                      then ((some acc2 : Option (List Int)), st)
                      else walkLeavesS st fuel (visited ++ [leaf.pageId])
                        (readPage st.1 leaf.nextLeaf) lo hi acc2).2 = st
                    by_cases hn : leaf.nextLeaf < 0
                    · rw [if_pos hn]
                    · rw [if_neg hn]
                      exact ih st (visited ++ [leaf.pageId])
                        (readPage st.1 leaf.nextLeaf) lo hi acc2

/-- C10: B+ tree lookups are read-only: for every pair of files (index file
and data file), every start block, every key and key range, and every loop
fuel, `search` and `range_search` return the files unchanged — the only
cursor operation they issue is `read_block`, which passes the state through;
the mutating operations (`update_block`, used by insert/remove/add and the
rebuild paths) never appear in them. -/
theorem lookups_read_only (st : TreeFiles) (fuel : Nat) (block : Int)
    (key lo hi : Nat) :
    (searchS st fuel block key).2 = st ∧
    (range_searchS st lo hi).2 = st := by
  constructor
  · exact searchS_preserves_files fuel st block key
  · rw [range_searchS]
    have hfind := findLeafS_preserves_files (st.1.pages.length + 1) st
      st.1.root_block lo
    cases hf : findLeafS st (st.1.pages.length + 1) st.1.root_block lo with
    | mk result st1 =>
        rw [hf] at hfind
        cases result with
        | none => simpa using hfind
        | some leaf =>
            have hwalk := walkLeavesS_preserves_files (st.1.pages.length + 1)
              st1 [] (some (Page.leaf leaf)) lo hi []
            simp only []
            rw [hwalk]
            simpa using hfind

end TuntunDB
